import Mathlib

/-!
Verification of the DNum library (dimensional numbers with a residual
"tracer" ledger).  The TypeScript source represents a value as the volume
of a d-dimensional hypercube, V = s^d, with a per-instance map from
dimension to accumulated residual amounts.

Shallow embedding conventions:
* JavaScript numbers are modelled as exact rationals (every finite IEEE
  double is a rational; NaN/Infinity corner cases are outside the claims).
* The transcendental library calls (Math.log10, Math.pow, Math.sqrt) and
  the string parser parseFloat are modelled as the fields of an abstract
  structure JSMath, threaded through every definition; theorems either
  hold for every JSMath or state the properties of the real functions
  they rely on as explicit hypotheses.
* A JS Map with number keys is an insertion-ordered association list;
  set replaces in place, forEach iterates in list order.
* The while loops of normalize and the deposit/internalAdd recursion are
  modelled with explicit fuel; the fuel is chosen generously and all
  loop lemmas are robust to early exhaustion.
* Methods that throw (sqrt on a negative) return Option.
-/

namespace DN

/-! ### Definitions: the shallow embedding of the source -/

/-- Abstract interface for the JavaScript math library calls made by the
source: Math.log10, Math.pow, Math.sqrt, and the parseFloat-with-zero
fallback used by fromStyledString. -/
structure JSMath where
  log10 : ℚ → ℚ
  pow : ℚ → ℚ → ℚ
  sqrt : ℚ → ℚ
  parseFloatOr0 : String → ℚ

/-- The observable state of a DNum instance: the side length s, the
dimension d, and the tracer buckets (dimension, amount) in insertion
order. -/
structure DState where
  s : ℚ
  d : ℚ
  buckets : List (ℚ × ℚ)
deriving DecidableEq, Repr

/-- JS Map.get: the value stored at key k, if any. -/
def mapGet (l : List (ℚ × ℚ)) (k : ℚ) : Option ℚ :=
  (l.find? (fun p => decide (p.1 = k))).map (fun p => p.2)

/-- JS Map.set: replace the value in place if the key is present,
otherwise append the new entry (JS maps keep insertion order). -/
def mapSet (l : List (ℚ × ℚ)) (k v : ℚ) : List (ℚ × ℚ) :=
  if l.any (fun p => decide (p.1 = k)) then
    l.map (fun p => if p.1 = k then (k, v) else p)
  else
    l ++ [(k, v)]

/-- JS Map.delete: remove the entry at key k. -/
def mapDelete (l : List (ℚ × ℚ)) (k : ℚ) : List (ℚ × ℚ) :=
  l.filter (fun p => decide (p.1 ≠ k))

/-- Models the JS idiom `Math.abs(x) || fallback`: the absolute value,
except that a zero absolute value is replaced by the fallback. -/
def jsAbsOr (x fallback : ℚ) : ℚ :=
  if |x| = 0 then fallback else |x|

/-- Floor of a rational as an integer, computed from the normalized
numerator and denominator (kernel-reducible, unlike the generic floor;
qfloor_eq below identifies the two). -/
def qfloor (q : ℚ) : ℤ := q.num / (q.den : ℤ)

/-- Ceiling of a rational as an integer. -/
def qceil (q : ℚ) : ℤ := -qfloor (-q)

/-- JS truncating conversion (the integral part of a number, toward 0). -/
def qtrunc (q : ℚ) : ℤ :=
  if 0 ≤ q then qfloor q else qceil q

/-- The JS remainder operator `a % b` (truncated division remainder). -/
def jsRem (a b : ℚ) : ℚ :=
  a - b * (qtrunc (a / b) : ℚ)

/-- DNum.totalLog: `this.d * Math.log10(Math.abs(this.s) || 1e-15)`. -/
def totalLog (M : JSMath) (st : DState) : ℚ :=
  st.d * M.log10 (jsAbsOr st.s (1 / 10 ^ 15))

/-- The sign factor `this.s >= 0 ? 1 : -1` used by normalize. -/
def normSign (s : ℚ) : ℚ :=
  if 0 ≤ s then 1 else -1

/-- First while loop of DNum.normalize:
`while (Math.abs(this.s) >= (this.d === 1 ? 1e15 : 100)) { this.d += 1;
this.s = sign * Math.pow(10, logV / this.d); }`, with explicit fuel. -/
def normLoop1 (M : JSMath) (sign logV : ℚ) : ℕ → ℚ → ℚ → ℚ × ℚ
  | 0, s, d => (s, d)
  | f + 1, s, d =>
    if |s| ≥ (if d = 1 then (10 : ℚ) ^ 15 else 100) then
      normLoop1 M sign logV f (sign * M.pow 10 (logV / (d + 1))) (d + 1)
    else (s, d)

/-- Second while loop of DNum.normalize:
`while (Math.abs(this.s) < 1.1 && this.d > 1) { this.d -= 1;
this.s = sign * Math.pow(10, logV / this.d); }`, with explicit fuel. -/
def normLoop2 (M : JSMath) (sign logV : ℚ) : ℕ → ℚ → ℚ → ℚ × ℚ
  | 0, s, d => (s, d)
  | f + 1, s, d =>
    if |s| < 11 / 10 ∧ d > 1 then
      normLoop2 M sign logV f (sign * M.pow 10 (logV / (d - 1))) (d - 1)
    else (s, d)

/-- Fuel bound for the two normalize loops.  The source loops terminate
because the recomputed side shrinks toward the window; this bound is
large enough for every exit proved below. -/
def normFuel (logV d : ℚ) : ℕ :=
  2 * ((qceil |logV|).toNat + (qceil |d|).toNat) + 8

/-- DNum.normalize: zero is forced to (0, 1); a dimension-1 value inside
(1e-10, 1e15) is left untouched; otherwise the dimension ladder is
walked with sign and logV fixed at entry, exactly as in the source. -/
def normalize (M : JSMath) (st : DState) : DState :=
  let absS := |st.s|
  if absS = 0 then { st with s := 0, d := 1 }
  else
    let sign := normSign st.s
    let logV := st.d * M.log10 absS
    if st.d = 1 ∧ absS < (10 : ℚ) ^ 15 ∧ absS > 1 / 10 ^ 10 then st
    else
      let f := normFuel logV st.d
      let p1 := normLoop1 M sign logV f st.s st.d
      let p2 := normLoop2 M sign logV f p1.1 p1.2
      { st with s := p2.1, d := p2.2 }

/-- The DNum constructor: store (s, d) with a fresh empty tracer system
and normalize. -/
def mkDNum (M : JSMath) (s d : ℚ) : DState :=
  normalize M { s := s, d := d, buckets := [] }

/-- TracerSystem.deposit, parameterized by the onOverflow callback (the
source registers the owning DNum's internalAdd): dimension-1 deposits
accumulate without limit; other dimensions promote to dim + 1 once the
running sum reaches ±100 (THRESHOLD). -/
def depositGo (M : JSMath) (onOverflow : DState → ℚ → ℚ → DState)
    (st : DState) (value dim : ℚ) : DState :=
  if value = 0 then st
  else
    let current := (mapGet st.buckets dim).getD 0
    let nextValue := current + value
    if dim = 1 then { st with buckets := mapSet st.buckets dim nextValue }
    else if nextValue ≥ 100 then
      let promotedS := M.pow nextValue (dim / (dim + 1))
      onOverflow { st with buckets := mapSet st.buckets dim 0 } promotedS (dim + 1)
    else if nextValue ≤ -100 then
      let demotedS := -(M.pow |nextValue| (dim / (dim + 1)))
      onOverflow { st with buckets := mapSet st.buckets dim 0 } demotedS (dim + 1)
    else { st with buckets := mapSet st.buckets dim nextValue }

/-- DNum.internalAdd.  The fuel bounds the deposit/internalAdd promotion
recursion (the source recursion terminates because promoted amounts
shrink); exhausted fuel stops the overflow callback.  The source
contains a second copy of the dimension-1 fast path guarded by the same
condition; it is unreachable dead code and is not duplicated here. -/
def internalAdd (M : JSMath) (f : ℕ) (st : DState) (amountS amountD : ℚ) :
    DState :=
  if amountS = 0 then st
  else if st.d = 1 ∧ amountD = 1 then
    let currentLog := M.log10 (jsAbsOr st.s (1 / 10 ^ 20))
    let incomingLog := M.log10 (jsAbsOr amountS (1 / 10 ^ 20))
    if currentLog - incomingLog > 15 then
      depositGo M
        (fun st1 v dm => match f with
          | 0 => st1
          | g + 1 => internalAdd M g st1 v dm) st amountS 1
    else
      let st1 : DState := { st with s := st.s + amountS }
      if |st1.s| > (10 : ℚ) ^ 15 then normalize M st1 else st1
  else
    let signA : ℚ := if 0 ≤ st.s then 1 else -1
    let signB : ℚ := if 0 ≤ amountS then 1 else -1
    let logV1 := totalLog M st
    let logV2 := amountD * M.log10 (jsAbsOr amountS (1 / 10 ^ 15))
    if logV1 - logV2 > 15 then
      depositGo M
        (fun st1 v dm => match f with
          | 0 => st1
          | g + 1 => internalAdd M g st1 v dm) st amountS amountD
    else
      let maxLog := max logV1 logV2
      let resLinear := signA * M.pow 10 (logV1 - maxLog) +
        signB * M.pow 10 (logV2 - maxLog)
      let resultSign : ℚ := if 0 ≤ resLinear then 1 else -1
      let resAbs := |resLinear|
      if resAbs < 1 / 10 ^ 18 then { st with s := 0, d := 1 }
      else
        let newLog := maxLog + M.log10 resAbs
        normalize M { st with s := resultSign * M.pow 10 (newLog / st.d) }

/-- A deposit into a live tracer system whose overflow callback is the
owner's internalAdd (used by deserialize). -/
def tracerDeposit (M : JSMath) (f : ℕ) (st : DState) (value dim : ℚ) : DState :=
  depositGo M (internalAdd M f) st value dim

/-- DNum.add: internalAdd the operand's main value, then every bucket of
a copy of the operand's ledger, in insertion order. -/
def addD (M : JSMath) (f : ℕ) (x y : DState) : DState :=
  (y.buckets).foldl (fun st p => internalAdd M f st p.2 p.1)
    (internalAdd M f x y.s y.d)

/-- DNum.sub: like add with the operand's main value and buckets
negated. -/
def subD (M : JSMath) (f : ℕ) (x y : DState) : DState :=
  (y.buckets).foldl (fun st p => internalAdd M f st (-p.2) p.1)
    (internalAdd M f x (-y.s) y.d)

/-- DNum.mul: clear the ledger, re-deposit every bucket rescaled by the
factor's totalLog, then rescale the main value and normalize. -/
def mulD (M : JSMath) (f : ℕ) (x y : DState) : DState :=
  let factorLog := totalLog M y
  let currentBuckets := x.buckets
  let st0 : DState := { x with buckets := [] }
  let st1 := currentBuckets.foldl (fun st p =>
    let bucketLog := p.1 * M.log10 |p.2|
    let newLog := bucketLog + factorLog
    let newS := M.pow 10 (newLog / p.1)
    internalAdd M f st newS p.1) st0
  let newLog := totalLog M st1 + factorLog
  normalize M { st1 with s := M.pow 10 (newLog / st1.d) }

/-- The floored log used by DNum.div when rebuilding one ledger bucket:
`Math.max(0, dim * Math.log10(Math.abs(val)) - divisorLog)`. -/
def divBucketLog (M : JSMath) (divisorLog dim val : ℚ) : ℚ :=
  max 0 (dim * M.log10 |val| - divisorLog)

/-- DNum.div: symmetric to mul with log subtraction floored at zero for
the main value and for every rescaled bucket. -/
def divD (M : JSMath) (f : ℕ) (x y : DState) : DState :=
  let divisorLog := totalLog M y
  let currentBuckets := x.buckets
  let st0 : DState := { x with buckets := [] }
  let st1 := currentBuckets.foldl (fun st p =>
    let newLog := divBucketLog M divisorLog p.1 p.2
    let newS := M.pow 10 (newLog / p.1)
    internalAdd M f st newS p.1) st0
  let newLog := max 0 (totalLog M st1 - divisorLog)
  normalize M { st1 with s := M.pow 10 (newLog / st1.d) }

/-- DNum.fromLog: canonical zero for logV ≤ -15, otherwise a fresh value
at dimension max(1, ceil(logV / 2)). -/
def fromLogD (M : JSMath) (logV : ℚ) : DState :=
  if logV ≤ -15 then mkDNum M 0 1
  else
    let targetD : ℚ := max 1 (qceil (logV / 2) : ℚ)
    mkDNum M (M.pow 10 (logV / targetD)) targetD

/-- DNum.fromAny on a numeric input: zero maps to canonical zero, values
below 1e15 stay at dimension 1, larger values pick a dimension like
fromLog.  (String inputs go through parseFloat first; the claims only
exercise the numeric case.) -/
def fromAnyD (M : JSMath) (val : ℚ) : DState :=
  if val = 0 then mkDNum M 0 1
  else
    let sign : ℚ := if 0 ≤ val then 1 else -1
    let absVal := |val|
    let logV := M.log10 absVal
    if absVal < (10 : ℚ) ^ 15 then mkDNum M val 1
    else
      let targetDim : ℚ := max 1 (qceil (logV / 2) : ℚ)
      let s := M.pow 10 (logV / targetDim)
      mkDNum M (sign * s) targetDim

/-- DNum.sqrt: none models the thrown domain error on s < 0; s = 0
yields canonical zero; small dimension-1 values delegate to the native
square root; otherwise halve the totalLog. -/
def sqrtD (M : JSMath) (st : DState) : Option DState :=
  if st.s < 0 then none
  else if st.s = 0 then some (mkDNum M 0 1)
  else if st.d = 1 ∧ st.s < (10 : ℚ) ^ 15 then some (fromAnyD M (M.sqrt st.s))
  else some (fromLogD M ((1 / 2) * totalLog M st))

/-- The structural content of the serialize() JSON snapshot:
`{ s, d, buckets: [...entries] }`. -/
structure SerialForm where
  s : ℚ
  d : ℚ
  buckets : List (ℚ × ℚ)
deriving DecidableEq, Repr

/-- DNum.serialize (the JSON text is modelled by its parsed structure). -/
def serializeD (st : DState) : SerialForm :=
  { s := st.s, d := st.d, buckets := st.buckets }

/-- DNum.deserialize: rebuild through the constructor, then re-apply
every stored bucket pair through the live tracer deposit. -/
def deserializeD (M : JSMath) (f : ℕ) (data : SerialForm) : DState :=
  data.buckets.foldl (fun st p => tracerDeposit M f st p.2 p.1)
    (mkDNum M data.s data.d)

/-- DNum.pow: the s = 0 check precedes the n = 0 check in the source;
n = 1 round-trips through serialize/deserialize; otherwise the result is
built from n * totalLog with the sign fixed for odd powers of a
negative base. -/
def powD (M : JSMath) (f : ℕ) (st : DState) (n : ℚ) : DState :=
  if st.s = 0 then mkDNum M 0 1
  else if n = 0 then fromAnyD M 1
  else if n = 1 then deserializeD M f (serializeD st)
  else
    let newLog := n * totalLog M st
    let resultSign : ℚ := if st.s < 0 ∧ ¬jsRem n 2 = 0 then -1 else 1
    let res := fromLogD M newLog
    { res with s := res.s * resultSign }

/-- DNum.getDistance: canonical zero below the 1e-15 log gap, the larger
magnitude beyond 15 decades, a precise log-domain difference between. -/
def getDistanceD (M : JSMath) (a b : DState) : DState :=
  let logA := totalLog M a
  let logB := totalLog M b
  if |logA - logB| < 1 / 10 ^ 15 then mkDNum M 0 1
  else
    let maxLog := max logA logB
    let minLog := min logA logB
    if maxLog - minLog > 15 then fromLogD M maxLog
    else
      let diffLinear := 1 - M.pow 10 (minLog - maxLog)
      let resLog := maxLog + M.log10 diffLinear
      fromLogD M resLog

/-- DNum.isZero: s must be zero and every tracer bucket must hold
exactly zero. -/
def isZeroD (st : DState) : Bool :=
  decide (st.s = 0) && st.buckets.all (fun p => decide (p.2 = 0))

/-- Insertion sort on rationals, modelling
`Array.from(buckets.keys()).sort((a, b) => a - b)`. -/
def insertAsc (x : ℚ) : List ℚ → List ℚ
  | [] => [x]
  | y :: ys => if x ≤ y then x :: y :: ys else y :: insertAsc x ys

/-- Ascending sort by repeated insertion. -/
def sortAsc : List ℚ → List ℚ
  | [] => []
  | x :: xs => insertAsc x (sortAsc xs)

/-- One step of the collapse loop: look the dimension up in the copied
bucket map; a nonzero value is merged (directly into s when both the
value and the bucket are at dimension 1, through internalAdd otherwise)
and then deleted from the copy only. -/
def collapseStep (M : JSMath) (f : ℕ) (acc : List (ℚ × ℚ) × DState)
    (dim : ℚ) : List (ℚ × ℚ) × DState :=
  match mapGet acc.1 dim with
  | none => acc
  | some val =>
    if val ≠ 0 then
      let cur := acc.2
      let cur1 := if cur.d = 1 ∧ dim = 1 then { cur with s := cur.s + val }
        else internalAdd M f cur val dim
      (mapDelete acc.1 dim, cur1)
    else acc

/-- DNum.collapse: iterate over the dimensions of a getBuckets() copy in
ascending order, merge each nonzero value into the main value, delete it
from the copy, and finish with normalize.  Note the deletes hit only the
copy: the live ledger (st.buckets) is left to the merges themselves. -/
def collapseD (M : JSMath) (f : ℕ) (st : DState) : DState :=
  let buckets := st.buckets
  let sortedDims := sortAsc (buckets.map (fun p => p.1))
  let r := sortedDims.foldl (collapseStep M f) (buckets, st)
  normalize M r.2

/-- Digit count of a natural number via fuelled division by 10 (used by
the concrete JSMath witnesses below). -/
def digCountAux : ℕ → ℕ → ℕ
  | 0, _ => 1
  | f + 1, n => if n < 10 then 1 else 1 + digCountAux f (n / 10)

/-- Number of decimal digits of a natural number (1 for 0); 64 digits of
fuel cover every number in this development. -/
def digCount (n : ℕ) : ℕ := digCountAux 64 n

/-- Left-pad a string with zeros to the given length. -/
def padZeros (str : String) (len : ℕ) : String :=
  String.mk (List.replicate (len - str.length) '0') ++ str

/-- JS Number.prototype.toFixed on a nonnegative rational: round
half-up at the given number of places and render without an exponent. -/
def toFixedNonneg (places : ℕ) (x : ℚ) : String :=
  let n : ℤ := qfloor (x * 10 ^ places + 1 / 2)
  let ip := n / (10 ^ places : ℤ)
  let fp := (n % (10 ^ places : ℤ)).toNat
  if places = 0 then toString ip
  else toString ip ++ "." ++ padZeros (toString fp) places

/-- JS Number.prototype.toFixed, negative values prefixed with a minus
sign as the spec prescribes. -/
def jsToFixed (places : ℕ) (x : ℚ) : String :=
  if x < 0 then "-" ++ toFixedNonneg places (-x) else toFixedNonneg places x

/-- DNum.toScientific: mantissa at 4 places plus e+ exponent; tiny
values render as a fixed zero form. -/
def toScientificD (M : JSMath) (st : DState) : String :=
  let logV := totalLog M st
  if logV < -10 then "0.00e+0"
  else
    let exponent : ℤ := ⌊logV⌋
    let mantissa := M.pow 10 (logV - (exponent : ℚ))
    jsToFixed 4 mantissa ++ "e+" ++ toString exponent

/-- DNum.toFullString: dimension-1 values render directly; larger
dimensions reconstruct 10^totalLog, falling back to scientific form
above totalLog 100. -/
def toFullStringD (M : JSMath) (st : DState) (precision : ℕ) : String :=
  if st.d = 1 then jsToFixed precision st.s
  else
    let logV := totalLog M st
    if logV < 0 then "0." ++ String.mk (List.replicate precision '0')
    else if logV > 100 then toScientificD M st
    else
      let val := (if 0 ≤ st.s then (1 : ℚ) else -1) * M.pow 10 logV
      jsToFixed precision val

/-- JS String.prototype.split(".") on the character list of a string. -/
def splitDotAux : List Char → List Char → List String
  | [], acc => [String.mk acc.reverse]
  | c :: cs, acc =>
    if c = '.' then String.mk acc.reverse :: splitDotAux cs []
    else splitDotAux cs (c :: acc)

/-- JS String.prototype.split(".").  -/
def splitDot (str : String) : List String := splitDotAux str.data []

/-- The fraction digits of toFixed, i.e. `x.toFixed(p).split(".")[1]`. -/
def toFixedFracPart (places : ℕ) (x : ℚ) : String :=
  (splitDot (jsToFixed places x)).getD 1 ""

/-- DNum.toPreciseString: at dimension 1, stitch the exact integer part
together with the fractional accumulator of s and every tracer bucket;
other dimensions delegate to toFullString. -/
def toPreciseStringD (M : JSMath) (st : DState) (decimalPlaces : ℕ) : String :=
  if ¬st.d = 1 then toFullStringD M st decimalPlaces
  else
    let absS := |st.s|
    let integerPart : ℤ := qfloor absS
    let fracAcc0 := jsRem absS 1
    let fracAcc := st.buckets.foldl (fun acc p => acc + p.2) fracAcc0
    let carry : ℤ := qfloor fracAcc
    let integerPart1 := integerPart + carry
    let finalFraction := |fracAcc - (carry : ℚ)|
    let sign := if st.s < 0 then "-" else ""
    let fractionStr := toFixedFracPart decimalPlaces finalFraction
    sign ++ toString integerPart1 ++ "." ++ fractionStr

/-- Value of a subscript digit glyph, if the character is one. -/
def subVal (c : Char) : Option Char :=
  if c = '₀' then some '0' else if c = '₁' then some '1'
  else if c = '₂' then some '2' else if c = '₃' then some '3'
  else if c = '₄' then some '4' else if c = '₅' then some '5'
  else if c = '₆' then some '6' else if c = '₇' then some '7'
  else if c = '₈' then some '8' else if c = '₉' then some '9'
  else none

/-- Value of a superscript digit glyph, if the character is one. -/
def supVal (c : Char) : Option Char :=
  if c = '⁰' then some '0' else if c = '¹' then some '1'
  else if c = '²' then some '2' else if c = '³' then some '3'
  else if c = '⁴' then some '4' else if c = '⁵' then some '5'
  else if c = '⁶' then some '6' else if c = '⁷' then some '7'
  else if c = '⁸' then some '8' else if c = '⁹' then some '9'
  else none

/-- The classification loop of fromStyledString: subscript digits feed
the dimension buffer, superscript digits the fraction buffer, everything
else the integer buffer. -/
def classifyStyled (styled : String) : String × String × String :=
  styled.data.foldl (fun acc c =>
    match subVal c with
    | some digit => (acc.1.push digit, acc.2.1, acc.2.2)
    | none =>
      match supVal c with
      | some digit => (acc.1, acc.2.1, acc.2.2.push digit)
      | none => (acc.1, acc.2.1.push c, acc.2.2)) ("", "", "")

/-- Parse a string of decimal digits; none when empty or non-digit. -/
def parseDigits (str : String) : Option ℕ :=
  if str.isEmpty then none
  else str.data.foldl (fun acc c =>
    match acc with
    | none => none
    | some n => if c.isDigit then some (10 * n + (c.toNat - '0'.toNat)) else none)
    (some 0)

/-- DNum.fromStyledString: classify the glyphs, then
`d = parseInt(dimStr) || 1` (the dimension buffer holds only decimal
digits, so parseInt is total there, with NaN-on-empty and 0 both falling
back to 1) and `s = parseFloat(mainStr + "." + fracStr) || 0`, the
latter through the abstract parseFloat of JSMath. -/
def fromStyledStringD (M : JSMath) (styled : String) : DState :=
  let bufs := classifyStyled styled
  let d : ℚ := match parseDigits bufs.1 with
    | some n => if n = 0 then 1 else (n : ℚ)
    | none => 1
  let s := M.parseFloatOr0 (bufs.2.1 ++ "." ++ bufs.2.2)
  mkDNum M s d

/-- Floor decimal logarithm on positives by digit counting; 0 elsewhere. -/
def qlogM0 (q : ℚ) : ℚ :=
  if q ≤ 0 then 0
  else if 1 ≤ q then (digCount (qfloor q).toNat : ℚ) - 1
  else -((digCount (qfloor (1 / q)).toNat : ℚ))

/-- Exact power on natural exponents, placeholder 2 otherwise. -/
def powM0 (b e : ℚ) : ℚ :=
  if e.den = 1 ∧ 0 ≤ e.num then b ^ e.num.toNat else 2

/-- The concrete witness instance of JSMath. -/
def M0 : JSMath :=
  { log10 := qlogM0, pow := powM0, sqrt := fun _ => 1,
    parseFloatOr0 := fun _ => 0 }

def addPair (M : JSMath) (f : ℕ) (p : DState × DState) : DState × DState :=
  (addD M f p.1 p.2, p.2)

def subPair (M : JSMath) (f : ℕ) (p : DState × DState) : DState × DState :=
  (subD M f p.1 p.2, p.2)

def getDistancePair (M : JSMath) (p : DState × DState) :
    DState × DState × DState :=
  (getDistanceD M p.1 p.2, p)

/-- Scenario B iteration: start from fromAny(300 billion) and add
fromAny(1e-9) k times (each add has ample fuel). -/
def scenB (M : JSMath) : ℕ → DState
  | 0 => fromAnyD M 300000000000
  | k + 1 => addD M 8 (scenB M k) (fromAnyD M (1 / 1000000000))

/-- The valid-dimension predicate: d is (the cast of) a natural number
at least 1. -/
def Qd (d : ℚ) : Prop := ∃ n : ℕ, 1 ≤ n ∧ d = (n : ℚ)

/-- The full representation invariant of the spec's data model. -/
def Pinv (st : DState) : Prop :=
  Qd st.d ∧ (st.s = 0 → st.d = 1) ∧
  (st.d = 1 → |st.s| ≤ (10 : ℚ) ^ 15) ∧
  (1 < st.d → 11 / 10 ≤ |st.s| ∧ |st.s| < 100)

/-- Order-embedding facts of the real base-10 exponential and logarithm,
stated for the abstract JSMath: 10^n is exact on integers, 10^x is
strictly monotone and positive, and 10^(log10 x) recovers every
positive x.  All four hold for the exact real functions (and the
computable instance MR below realizes them over the rationals). -/
structure RealLike (M : JSMath) : Prop where
  pow10_int : ∀ n : ℤ, M.pow 10 (n : ℚ) = (10 : ℚ) ^ n
  pow10_strictMono : StrictMono (fun e : ℚ => M.pow 10 e)
  pow10_pos : ∀ e : ℚ, 0 < M.pow 10 e
  pow10_log10 : ∀ x : ℚ, 0 < x → M.pow 10 (M.log10 x) = x

/-- The states reachable through the public factories (the constructor
restricted to integer dimensions at least 1, fromAny, fromLog,
fromStyledString, deserialize of snapshots with integer dimension at
least 1) and closed under the public operations. -/
inductive Reach (M : JSMath) : DState → Prop where
  | ctor (s : ℚ) (n : ℕ) (hn : 1 ≤ n) : Reach M (mkDNum M s (n : ℚ))
  | fromAny (q : ℚ) : Reach M (fromAnyD M q)
  | fromLog (q : ℚ) : Reach M (fromLogD M q)
  | fromStyled (str : String) : Reach M (fromStyledStringD M str)
  | deserialize (s : ℚ) (n : ℕ) (hn : 1 ≤ n) (bs : List (ℚ × ℚ)) (f : ℕ) :
      Reach M (deserializeD M f ⟨s, (n : ℚ), bs⟩)
  | add (x y : DState) (f : ℕ) : Reach M x → Reach M (addD M f x y)
  | sub (x y : DState) (f : ℕ) : Reach M x → Reach M (subD M f x y)
  | mul (x y : DState) (f : ℕ) : Reach M x → Reach M (mulD M f x y)
  | div (x y : DState) (f : ℕ) : Reach M x → Reach M (divD M f x y)
  | pow (x : DState) (n : ℚ) (f : ℕ) : Reach M x → Reach M (powD M f x n)
  | sqrt (x y : DState) : Reach M x → sqrtD M x = some y → Reach M y
  | collapse (x : DState) (f : ℕ) : Reach M x → Reach M (collapseD M f x)
  | dist (a b : DState) : Reach M (getDistanceD M a b)

/-- Floor of the base-10 logarithm of a positive rational, computed by
Nat.log of the integer part (or of the reciprocal's integer part). -/
def ratFloorLog10 (q : ℚ) : ℤ :=
  if 1 ≤ q then (Nat.log 10 (qfloor q).toNat : ℤ)
  else
    let L : ℤ := (Nat.log 10 (qfloor (1 / q)).toNat : ℤ)
    if (10 : ℚ) ^ (-L) ≤ q then -L else -(L + 1)

/-- A rational-valued logarithm: the floor log plus a linear
interpolation of the mantissa; exact inverse of MRpow10 on
positives. -/
def MRlog (q : ℚ) : ℚ :=
  if q ≤ 0 then 0
  else ((ratFloorLog10 q : ℤ) : ℚ) +
    (q / (10 : ℚ) ^ ratFloorLog10 q - 1) / 9

/-- A rational-valued exponential: exact powers of ten at the integers,
linear in between — a strictly monotone bijection onto the positive
rationals. -/
def MRpow10 (e : ℚ) : ℚ :=
  (10 : ℚ) ^ qfloor e * (1 + 9 * (e - (qfloor e : ℚ)))

/-- Math.pow specialized: exact at base 10, placeholder elsewhere. -/
def MRpow (b e : ℚ) : ℚ := if b = 10 then MRpow10 e else 1

/-- The rational JSMath realizing the RealLike facts. -/
def MR : JSMath :=
  { log10 := MRlog, pow := MRpow, sqrt := fun _ => 1,
    parseFloatOr0 := fun _ => 0 }

/-! ### Theorems -/

/-- The zero constructor collapses to canonical zero. -/
theorem mkDNum_zero (M : JSMath) : mkDNum M 0 1 = ⟨0, 1, []⟩ := by
  simp [mkDNum, normalize]

/-- normalize leaves a dimension-1 value inside the linear window
untouched. -/
theorem normalize_fast (M : JSMath) (st : DState) (hd : st.d = 1)
    (h1 : |st.s| < (10 : ℚ) ^ 15) (h2 : |st.s| > 1 / 10 ^ 10) :
    normalize M st = st := by
  have h0 : ¬|st.s| = 0 := by
    intro h
    rw [h] at h2
    norm_num at h2
  rw [normalize]
  simp only [if_neg h0]
  rw [if_pos ⟨hd, h1, h2⟩]

theorem fromAny_small (M : JSMath) (q : ℚ) (h0 : q ≠ 0)
    (h1 : |q| < (10 : ℚ) ^ 15) (h2 : |q| > 1 / 10 ^ 10) :
    fromAnyD M q = ⟨q, 1, []⟩ := by
  rw [fromAnyD, if_neg h0]
  simp only [abs_abs]
  rw [if_pos h1, mkDNum]
  exact normalize_fast M ⟨q, 1, []⟩ rfl h1 h2

example : (1:ℕ) = 1 := rfl

/-- Claim C6: sqrt signals a domain fault (modelled as none) exactly
when s < 0, returns canonical zero for s = 0, and otherwise returns a
value; being a pure function of the receiver, it leaves the receiver
untouched and no NaN-like state exists on the error path. -/
theorem C6_sqrt_domain (M : JSMath) (st : DState) :
    (sqrtD M st = none ↔ st.s < 0) ∧
    (st.s = 0 → sqrtD M st = some ⟨0, 1, []⟩) := by
  constructor
  · constructor
    · intro h
      by_contra hneg
      rw [sqrtD, if_neg hneg] at h
      by_cases h0 : st.s = 0
      · rw [if_pos h0] at h; exact Option.noConfusion h
      · rw [if_neg h0] at h
        by_cases h1 : st.d = 1 ∧ st.s < (10 : ℚ) ^ 15
        · rw [if_pos h1] at h; exact Option.noConfusion h
        · rw [if_neg h1] at h; exact Option.noConfusion h
    · intro h; rw [sqrtD, if_pos h]
  · intro h
    have : ¬st.s < 0 := by rw [h]; norm_num
    rw [sqrtD, if_neg this, if_pos h, mkDNum_zero]

/-- Claim C7: add, sub and getDistance never mutate their operand.  The
source writes only to fields of the receiver and reads the operand's s,
d and a getBuckets() copy; the pair-level embedding therefore returns
the operand component unchanged, which this theorem states. -/
theorem C7_operand_immutable (M : JSMath) (f : ℕ) (x y : DState) :
    (addPair M f (x, y)).2 = y ∧ (subPair M f (x, y)).2 = y ∧
    (getDistancePair M (x, y)).2 = (x, y) :=
  ⟨rfl, rfl, rfl⟩

/-- Claim C4: getDistance returns |a - b| within the documented
tolerances — canonical zero when the totalLog gap is below 1e-15 (in
particular for Scenario D's two identical fromLog(1000) values), the
larger magnitude when the gap exceeds 15 decades, and the precise
log-domain difference otherwise; as a pure function of two states it
mutates neither input. -/
theorem C4_getDistance_spec (M : JSMath) (a b : DState) :
    (|totalLog M a - totalLog M b| < 1 / 10 ^ 15 →
      getDistanceD M a b = ⟨0, 1, []⟩) ∧
    getDistanceD M (fromLogD M 1000) (fromLogD M 1000) = ⟨0, 1, []⟩ ∧
    (¬|totalLog M a - totalLog M b| < 1 / 10 ^ 15 →
      max (totalLog M a) (totalLog M b) - min (totalLog M a) (totalLog M b) > 15 →
      getDistanceD M a b = fromLogD M (max (totalLog M a) (totalLog M b))) ∧
    (¬|totalLog M a - totalLog M b| < 1 / 10 ^ 15 →
      ¬max (totalLog M a) (totalLog M b) - min (totalLog M a) (totalLog M b) > 15 →
      getDistanceD M a b = fromLogD M (max (totalLog M a) (totalLog M b) +
        M.log10 (1 - M.pow 10 (min (totalLog M a) (totalLog M b) -
          max (totalLog M a) (totalLog M b))))) := by
  refine ⟨fun h => ?_, ?_, fun h1 h2 => ?_, fun h1 h2 => ?_⟩
  · rw [getDistanceD, if_pos h, mkDNum_zero]
  · rw [getDistanceD, if_pos (by rw [sub_self, abs_zero]; norm_num), mkDNum_zero]
  · rw [getDistanceD, if_neg h1, if_pos h2]
  · rw [getDistanceD, if_neg h1, if_neg h2]

/-- Claim C5 counterexample: pow checks s == 0 before n == 0, so
canonical zero raised to the 0th power is canonical zero, not the
claimed multiplicative identity with s == 1. -/
theorem C5_pow_zero_counterexample :
    ¬((powD M0 8 ⟨0, 1, []⟩ 0).s = 1 ∧ (powD M0 8 ⟨0, 1, []⟩ 0).d = 1) := by
  decide

/-- Claim C5 (amended): for every value with s different from 0,
pow(0) returns the multiplicative identity (1, 1, empty ledger); for
s == 0 it returns canonical zero. -/
theorem C5_pow_zero_amended (M : JSMath) (f : ℕ) (st : DState) :
    (st.s ≠ 0 → powD M f st 0 = ⟨1, 1, []⟩) ∧
    (st.s = 0 → powD M f st 0 = ⟨0, 1, []⟩) := by
  constructor
  · intro h
    rw [powD, if_neg h, if_pos rfl, fromAny_small] <;> norm_num
  · intro h
    rw [powD, if_pos h, mkDNum_zero]

theorem C5_pow_zero_witness : powD M0 8 ⟨5, 1, []⟩ 0 = ⟨1, 1, []⟩ :=
  (C5_pow_zero_amended M0 8 ⟨5, 1, []⟩).1 (by norm_num)

theorem C4_getDistance_witness : getDistanceD M0 ⟨5, 1, []⟩ ⟨5, 1, []⟩ = ⟨0, 1, []⟩ :=
  (C4_getDistance_spec M0 ⟨5, 1, []⟩ ⟨5, 1, []⟩).1 (by rw [sub_self, abs_zero]; norm_num)

theorem C6_sqrt_witness : sqrtD M0 ⟨0, 1, []⟩ = some ⟨0, 1, []⟩ :=
  (C6_sqrt_domain M0 ⟨0, 1, []⟩).2 rfl

theorem jsAbsOr_ne (x fb : ℚ) (h : x ≠ 0) : jsAbsOr x fb = |x| := by
  rw [jsAbsOr, if_neg (by simpa using h)]

theorem qfloor_eq (q : ℚ) : qfloor q = ⌊q⌋ := Rat.floor_def.symm

theorem qlogM0_3e11 : qlogM0 (300000000000 : ℚ) = 11 := by
  have h1 : qfloor (300000000000 : ℚ) = 300000000000 := by norm_num [qfloor]
  have h2 : digCount (300000000000 : ℤ).toNat = 12 := by decide
  rw [qlogM0, if_neg (by norm_num), if_pos (by norm_num), h1, h2]
  norm_num

theorem qlogM0_nano : qlogM0 ((1 : ℚ) / 1000000000) = -10 := by
  have h0 : ((1 : ℚ) / (1 / 1000000000)) = 1000000000 := by norm_num
  have h1 : qfloor (1000000000 : ℚ) = 1000000000 := by norm_num [qfloor]
  have h2 : digCount (1000000000 : ℤ).toNat = 10 := by decide
  rw [qlogM0, if_neg (by norm_num), if_neg (by norm_num), h0, h1, h2]
  norm_num

theorem hgapM0 : M0.log10 300000000000 - M0.log10 (1 / 1000000000) > 15 := by
  show qlogM0 300000000000 - qlogM0 (1 / 1000000000) > 15
  rw [qlogM0_3e11, qlogM0_nano]
  norm_num

theorem fromAny_3e11 (M : JSMath) :
    fromAnyD M 300000000000 = ⟨300000000000, 1, []⟩ := by
  apply fromAny_small M _ (by norm_num)
  · rw [abs_of_pos (by norm_num)]; norm_num
  · rw [abs_of_pos (by norm_num)]; norm_num

theorem fromAny_nano (M : JSMath) :
    fromAnyD M (1 / 1000000000) = ⟨1 / 1000000000, 1, []⟩ := by
  apply fromAny_small M _ (by norm_num)
  · rw [abs_of_pos (by norm_num)]; norm_num
  · rw [abs_of_pos (by norm_num)]; norm_num

theorem scenB_state (M : JSMath)
    (hgap : M.log10 300000000000 - M.log10 (1 / 1000000000) > 15) (k : ℕ) :
    scenB M k = ⟨300000000000, 1,
      if k = 0 then [] else [(1, (k : ℚ) / 1000000000)]⟩ := by
  have hgap' : M.log10 (jsAbsOr (300000000000 : ℚ) (1 / 10 ^ 20)) -
      M.log10 (jsAbsOr ((1 : ℚ) / 1000000000) (1 / 10 ^ 20)) > 15 := by
    rw [jsAbsOr_ne _ _ (by norm_num), jsAbsOr_ne _ _ (by norm_num),
      abs_of_pos (by norm_num), abs_of_pos (by norm_num)]
    exact hgap
  induction k with
  | zero =>
    rw [scenB]
    simp only [if_pos rfl]
    exact fromAny_3e11 M
  | succ k ih =>
    rw [scenB, ih, fromAny_nano M, addD]
    simp only [List.foldl_nil]
    rw [internalAdd]
    rw [if_neg (by norm_num : ¬((1 : ℚ) / 1000000000) = 0)]
    rw [if_pos (⟨rfl, rfl⟩ : (1 : ℚ) = 1 ∧ (1 : ℚ) = 1)]
    rw [if_pos hgap']
    rw [depositGo, if_neg (by norm_num : ¬((1 : ℚ) / 1000000000) = 0),
      if_pos rfl]
    by_cases hk : k = 0
    · subst hk
      simp only [if_pos rfl, if_neg (Nat.succ_ne_zero 0)]
      simp [mapGet, mapSet]
    · rw [if_neg hk, if_neg (Nat.succ_ne_zero k)]
      simp only [mapGet, mapSet, List.find?, List.any]
      norm_num
      ring

/-- Evaluation of the precise-string stitching on the Scenario B final
state (pure except for the dead d ≠ 1 branch, hence valid for every
JSMath). -/
theorem stitch_scenB (M : JSMath) :
    toPreciseStringD M ⟨300000000000, 1, [(1, 1 / 10000)]⟩ 10 =
      "300000000000.0001000000" := by
  rw [toPreciseStringD, if_neg (by norm_num)]
  have habs : |(300000000000 : ℚ)| = 300000000000 := by
    rw [abs_of_pos] <;> norm_num
  have hrem : jsRem (300000000000 : ℚ) 1 = 0 := by
    norm_num [jsRem, qtrunc, qfloor]
  have hfl1 : qfloor (300000000000 : ℚ) = 300000000000 := by norm_num [qfloor]
  simp only [habs, hrem, List.foldl_cons, List.foldl_nil, hfl1]
  norm_num
  have hfl2 : qfloor ((1 : ℚ) / 10000) = 0 := by norm_num [qfloor]
  rw [hfl2]
  norm_num [toFixedFracPart, jsToFixed, toFixedNonneg]
  have habs2 : |(1 : ℚ) / 10000| = 1 / 10000 := by
    rw [abs_of_pos] <;> norm_num
  rw [habs2, if_neg (by norm_num : ¬((1 : ℚ) / 10000) < 0)]
  have hfl3 : qfloor ((1 : ℚ) / 10000 * 10000000000 + 1 / 2) = 1000000 := by
    norm_num [qfloor]
  rw [hfl3]
  decide

/-- Claim C2: Scenario B.  With the (true of Math.log10) fact that the
log gap between 3e11 and 1e-9 exceeds 15, every one of the additions is
deposited into the dimension-1 ledger bucket, the main value never
moves, and the precise string of the final state is exact. -/
theorem C2_scenarioB (M : JSMath)
    (hgap : M.log10 300000000000 - M.log10 (1 / 1000000000) > 15) :
    (∀ k : ℕ, k ≤ 100000 → (scenB M k).s = 300000000000 ∧ (scenB M k).d = 1 ∧
      (scenB M k).buckets =
        if k = 0 then [] else [(1, (k : ℚ) / 1000000000)]) ∧
    toPreciseStringD M (scenB M 100000) 10 = "300000000000.0001000000" := by
  constructor
  · intro k _
    rw [scenB_state M hgap k]
    exact ⟨rfl, rfl, rfl⟩
  · rw [scenB_state M hgap 100000]
    have hq : ((100000 : ℕ) : ℚ) / 1000000000 = 1 / 10000 := by norm_num
    rw [if_neg (by norm_num), hq]
    exact stitch_scenB M

theorem C2_scenarioB_witness :
    toPreciseStringD M0 (scenB M0 100000) 10 = "300000000000.0001000000" :=
  (C2_scenarioB M0 hgapM0).2

theorem collapse_xC1 :
    collapseD M0 8 ⟨300000000000, 1, [(1, 1 / 1000000000)]⟩ =
      ⟨300000000000 + 1 / 1000000000, 1, [(1, 1 / 1000000000)]⟩ := by
  rw [collapseD]
  simp only [List.map_cons, List.map_nil, sortAsc, insertAsc,
    List.foldl_cons, List.foldl_nil]
  rw [collapseStep]
  simp only [mapGet, List.find?, decide_eq_true_eq, Option.map_some]
  norm_num
  apply normalize_fast
  · rfl
  · rw [abs_of_pos (by norm_num)]; norm_num
  · rw [abs_of_pos (by norm_num)]; norm_num

/-- Claim C1 (code bug evaluation): collapse() deletes only from the
getBuckets() copy, so after collapsing a value whose ledger holds the
nonzero dimension-1 bucket 1e-9, that bucket is still present (and its
amount was also merged into s, double-counting it). -/
theorem C1_collapse_keeps_ledger :
    (collapseD M0 8 (scenB M0 1)).buckets = [(1, 1 / 1000000000)] ∧
    (collapseD M0 8 (scenB M0 1)).s = 300000000000 + 1 / 1000000000 := by
  have h1 : scenB M0 1 = ⟨300000000000, 1, [(1, 1 / 1000000000)]⟩ := by
    rw [scenB_state M0 hgapM0 1]
    norm_num
  rw [h1, collapse_xC1]
  exact ⟨rfl, rfl⟩

theorem qlogM0_5e14 : qlogM0 (500000000000000 : ℚ) = 14 := by
  have h1 : qfloor (500000000000000 : ℚ) = 500000000000000 := by
    norm_num [qfloor]
  have h2 : digCount (500000000000000 : ℤ).toNat = 15 := by decide
  rw [qlogM0, if_neg (by norm_num), if_pos (by norm_num), h1, h2]
  norm_num

theorem qlogM0_1e15 : qlogM0 (1000000000000000 : ℚ) = 15 := by
  have h1 : qfloor (1000000000000000 : ℚ) = 1000000000000000 := by
    norm_num [qfloor]
  have h2 : digCount (1000000000000000 : ℤ).toNat = 16 := by decide
  rw [qlogM0, if_neg (by norm_num), if_pos (by norm_num), h1, h2]
  norm_num

theorem normLoop1_stop (M : JSMath) (sign logV : ℚ) (f : ℕ) (s d : ℚ)
    (h : ¬|s| ≥ (if d = 1 then (10 : ℚ) ^ 15 else 100)) :
    normLoop1 M sign logV f s d = (s, d) := by
  cases f with
  | zero => rfl
  | succ g => rw [normLoop1, if_neg h]

theorem normLoop1_step (M : JSMath) (sign logV : ℚ) (f : ℕ) (s d : ℚ)
    (h : |s| ≥ (if d = 1 then (10 : ℚ) ^ 15 else 100)) :
    normLoop1 M sign logV (f + 1) s d =
      normLoop1 M sign logV f (sign * M.pow 10 (logV / (d + 1))) (d + 1) := by
  rw [normLoop1, if_pos h]

theorem normLoop2_stop (M : JSMath) (sign logV : ℚ) (f : ℕ) (s d : ℚ)
    (h : ¬(|s| < 11 / 10 ∧ d > 1)) :
    normLoop2 M sign logV f s d = (s, d) := by
  cases f with
  | zero => rfl
  | succ g => rw [normLoop2, if_neg h]

theorem normLoop2_step (M : JSMath) (sign logV : ℚ) (f : ℕ) (s d : ℚ)
    (h : |s| < 11 / 10 ∧ d > 1) :
    normLoop2 M sign logV (f + 1) s d =
      normLoop2 M sign logV f (sign * M.pow 10 (logV / (d - 1))) (d - 1) := by
  rw [normLoop2, if_pos h]

theorem x8_eval :
    addD M0 8 (fromAnyD M0 500000000000000) (fromAnyD M0 500000000000000) =
      ⟨1000000000000000, 1, []⟩ := by
  have h5 : fromAnyD M0 500000000000000 = ⟨500000000000000, 1, []⟩ := by
    apply fromAny_small M0 _ (by norm_num)
    · rw [abs_of_pos (by norm_num)]; norm_num
    · rw [abs_of_pos (by norm_num)]; norm_num
  rw [h5, addD]
  simp only [List.foldl_nil]
  rw [internalAdd, if_neg (by norm_num : ¬(500000000000000 : ℚ) = 0),
    if_pos (⟨rfl, rfl⟩ : (1 : ℚ) = 1 ∧ (1 : ℚ) = 1),
    if_neg (by rw [sub_self]; norm_num)]
  norm_num

theorem deserial_1e15 :
    deserializeD M0 8 (serializeD (⟨1000000000000000, 1, []⟩ : DState)) =
      ⟨2, 2, []⟩ := by
  rw [serializeD, deserializeD]
  simp only [List.foldl_nil]
  rw [mkDNum, normalize]
  have habs : |(1000000000000000 : ℚ)| = 1000000000000000 := by
    rw [abs_of_pos (by norm_num)]
  simp only [habs]
  rw [if_neg (by norm_num), if_neg (by norm_num)]
  have hlog : M0.log10 1000000000000000 = 15 := qlogM0_1e15
  have hsign : normSign (1000000000000000 : ℚ) = 1 := by
    rw [normSign, if_pos (by norm_num)]
  rw [hlog, hsign]
  have hfuel : normFuel ((1 : ℚ) * 15) 1 = 40 := by
    rw [normFuel]
    norm_num [qceil, qfloor]
    decide
  rw [hfuel]
  have hp : powM0 10 ((1 * 15 : ℚ) / (1 + 1)) = 2 := by
    norm_num [powM0]
  have hl1 : normLoop1 M0 1 ((1 : ℚ) * 15) 40 1000000000000000 1 = (2, 2) := by
    rw [show (40 : ℕ) = 39 + 1 from rfl, normLoop1_step]
    · show normLoop1 M0 1 (1 * 15) 39
        (1 * powM0 10 ((1 * 15 : ℚ) / (1 + 1))) (1 + 1) = (2, 2)
      rw [hp]
      rw [normLoop1_stop]
      · norm_num
      · rw [if_neg (by norm_num)]
        rw [abs_of_pos (by norm_num)]
        norm_num
    · rw [if_pos rfl]
      rw [abs_of_pos (by norm_num)]
      norm_num
  rw [hl1]
  have hl2 : normLoop2 M0 1 ((1 : ℚ) * 15) 40
      (((2 : ℚ), (2 : ℚ))).1 (((2 : ℚ), (2 : ℚ))).2 = (2, 2) := by
    show normLoop2 M0 1 ((1 : ℚ) * 15) 40 2 2 = (2, 2)
    apply normLoop2_stop
    intro hcon
    rcases hcon with ⟨h1, _⟩
    rw [abs_of_pos (by norm_num)] at h1
    norm_num at h1
  rw [hl2]

/-- Claim C8 counterexample: the reachable value (1e15, 1) (the sum of
two copies of fromAny(5e14)) has no ledger buckets at all, yet the
serialize/deserialize round trip re-runs the constructor's normalize,
which promotes it off dimension 1. -/
theorem C8_roundtrip_counterexample :
    (deserializeD M0 8 (serializeD (addD M0 8 (fromAnyD M0 500000000000000)
      (fromAnyD M0 500000000000000)))).d = 2 ∧
    (addD M0 8 (fromAnyD M0 500000000000000)
      (fromAnyD M0 500000000000000)).d = 1 := by
  rw [x8_eval, deserial_1e15]
  exact ⟨rfl, rfl⟩

theorem mapGet_none (k : ℚ) :
    ∀ (l : List (ℚ × ℚ)), k ∉ l.map Prod.fst → mapGet l k = none
  | [], _ => rfl
  | p :: tl, h => by
    have hp : ¬p.1 = k := fun he => h (by simp [he])
    rw [mapGet, List.find?_cons_of_neg _ (by simpa using hp)]
    exact mapGet_none k tl (fun hm => h (List.mem_cons_of_mem _ hm))

theorem mapSet_append (l : List (ℚ × ℚ)) (k v : ℚ)
    (h : k ∉ l.map Prod.fst) : mapSet l k v = l ++ [(k, v)] := by
  rw [mapSet, if_neg]
  simp only [List.any_eq_true, decide_eq_true_eq, not_exists]
  intro p hp
  exact h (List.mem_map.mpr ⟨p, hp.1, hp.2⟩)

theorem depositGo_fresh (M : JSMath) (cb : DState → ℚ → ℚ → DState)
    (s d v k : ℚ) (bl : List (ℚ × ℚ)) (hk : k ∉ bl.map Prod.fst)
    (hsmall : k = 1 ∨ |v| < 100) :
    depositGo M cb ⟨s, d, bl⟩ v k =
      ⟨s, d, if v = 0 then bl else bl ++ [(k, v)]⟩ := by
  by_cases hv : v = 0
  · rw [depositGo, if_pos hv, if_pos hv]
  · rw [if_neg hv, depositGo, if_neg hv]
    have hget : mapGet bl k = none := mapGet_none k bl hk
    simp only [hget, Option.getD_none, zero_add]
    rcases hsmall with h1 | h100
    · rw [if_pos h1, mapSet_append bl k v hk]
    · have hub : ¬v ≥ 100 := by
        intro hc
        rw [abs_of_nonneg (le_trans (by norm_num) hc)] at h100
        exact absurd h100 (not_lt.mpr hc)
      have hlb : ¬v ≤ -100 := by
        intro hc
        rw [abs_of_nonpos (le_trans hc (by norm_num))] at h100
        have : (100 : ℚ) ≤ -v := by linarith
        exact absurd h100 (not_lt.mpr this)
      by_cases h1 : k = 1
      · rw [if_pos h1, mapSet_append bl k v hk]
      · rw [if_neg h1, if_neg hub, if_neg hlb, mapSet_append bl k v hk]

theorem deposit_fold (M : JSMath) (f : ℕ) (s d : ℚ) :
    ∀ (l done : List (ℚ × ℚ)),
    (∀ p ∈ l, p.1 ∉ done.map Prod.fst) →
    (l.map Prod.fst).Nodup →
    (∀ p ∈ l, p.1 = 1 ∨ |p.2| < 100) →
    l.foldl (fun st p => tracerDeposit M f st p.2 p.1)
        ⟨s, d, done.filter (fun p => decide (p.2 ≠ 0))⟩ =
      ⟨s, d, (done ++ l).filter (fun p => decide (p.2 ≠ 0))⟩ := by
  intro l
  induction l with
  | nil =>
    intro done _ _ _
    simp
  | cons p tl ih =>
    intro done hdisj hnodup hsmall
    rw [List.foldl_cons]
    have hfresh : p.1 ∉ (done.filter (fun p => decide (p.2 ≠ 0))).map Prod.fst := by
      intro hmem
      rcases List.mem_map.mp hmem with ⟨q, hq, hqk⟩
      exact hdisj p (List.mem_cons_self p tl)
        (List.mem_map.mpr ⟨q, List.mem_of_mem_filter hq, hqk⟩)
    have hstep : tracerDeposit M f ⟨s, d, done.filter (fun p => decide (p.2 ≠ 0))⟩ p.2 p.1 =
        ⟨s, d, (done ++ [p]).filter (fun p => decide (p.2 ≠ 0))⟩ := by
      rw [tracerDeposit, depositGo_fresh M _ s d p.2 p.1 _ hfresh
        (hsmall p (List.mem_cons_self p tl))]
      rw [List.filter_append]
      by_cases hv : p.2 = 0
      · rw [if_pos hv]
        simp [hv]
      · rw [if_neg hv]
        simp [hv]
    rw [hstep]
    have hdisj2 : ∀ q ∈ tl, q.1 ∉ (done ++ [p]).map Prod.fst := by
      intro q hq hmem
      rw [List.map_append, List.mem_append] at hmem
      rcases hmem with hm | hm
      · exact hdisj q (List.mem_cons_of_mem _ hq) hm
      · simp only [List.map_cons, List.map_nil, List.mem_singleton] at hm
        rw [List.map_cons] at hnodup
        rcases List.nodup_cons.mp hnodup with ⟨hp1, _⟩
        exact hp1 (hm ▸ List.mem_map.mpr ⟨q, hq, rfl⟩)
    have hnodup2 : (tl.map Prod.fst).Nodup := by
      rw [List.map_cons] at hnodup
      exact (List.nodup_cons.mp hnodup).2
    have hsmall2 : ∀ q ∈ tl, q.1 = 1 ∨ |q.2| < 100 :=
      fun q hq => hsmall q (List.mem_cons_of_mem _ hq)
    have := ih (done ++ [p]) hdisj2 hnodup2 hsmall2
    rw [this, List.append_assoc]
    rfl

/-- Claim C8 (amended): for a value whose (s, d) is stable under the
constructor's normalize, whose bucket keys are distinct (as they are in
a JS Map) and whose buckets at dimensions other than 1 are below the
promotion threshold, the serialize/deserialize round trip reproduces s,
d, and exactly the nonzero buckets. -/
theorem C8_roundtrip_amended (M : JSMath) (f : ℕ) (x : DState)
    (hnorm : mkDNum M x.s x.d = ⟨x.s, x.d, []⟩)
    (hkeys : (x.buckets.map Prod.fst).Nodup)
    (hb : ∀ p ∈ x.buckets, p.1 = 1 ∨ |p.2| < 100) :
    deserializeD M f (serializeD x) =
      ⟨x.s, x.d, x.buckets.filter (fun p => decide (p.2 ≠ 0))⟩ := by
  rw [serializeD, deserializeD]
  show x.buckets.foldl _ (mkDNum M x.s x.d) = _
  rw [hnorm]
  have h0 : (⟨x.s, x.d, []⟩ : DState) =
      ⟨x.s, x.d, ([] : List (ℚ × ℚ)).filter (fun p => decide (p.2 ≠ 0))⟩ := rfl
  rw [h0, deposit_fold M f x.s x.d x.buckets [] (by simp) hkeys hb]
  rfl

theorem C8_roundtrip_witness :
    deserializeD M0 8 (serializeD ⟨5, 1, [(1, 3), (2, 50)]⟩) =
      ⟨5, 1, [(1, 3), (2, 50)]⟩ := by
  have h := C8_roundtrip_amended M0 8 ⟨5, 1, [(1, 3), (2, 50)]⟩
    (normalize_fast M0 ⟨5, 1, []⟩ rfl (by rw [abs_of_pos] <;> norm_num)
      (by rw [abs_of_pos] <;> norm_num))
    (by norm_num)
    (by
      intro p hp
      simp only [List.mem_cons, List.mem_singleton, List.not_mem_nil,
        or_false] at hp
      rcases hp with rfl | rfl
      · left; norm_num
      · right
        rw [show ((2 : ℚ), (50 : ℚ)).2 = 50 from rfl,
          abs_of_pos (by norm_num : (0 : ℚ) < 50)]
        norm_num)
  rw [h]
  rfl

theorem mk_half_eval : mkDNum M0 5 (1 / 2) = ⟨5, 1 / 2, []⟩ := by
  rw [mkDNum, normalize]
  have habs : |(5 : ℚ)| = 5 := abs_of_pos (by norm_num)
  simp only [habs]
  rw [if_neg (by norm_num),
    if_neg (by norm_num : ¬((1 : ℚ) / 2 = 1 ∧ (5 : ℚ) < 10 ^ 15 ∧ (5 : ℚ) > 1 / 10 ^ 10))]
  rw [normLoop1_stop M0 _ _ _ 5 (1 / 2)
    (by rw [if_neg (by norm_num), habs]; norm_num)]
  rw [normLoop2_stop M0 _ _ _ 5 (1 / 2)
    (by rw [habs]; rintro ⟨hc, -⟩; norm_num at hc)]

/-- Claim C3 counterexample: the public constructor accepts the
non-integer dimension 1/2, and normalize leaves it in place, so the
"d is an integer ≥ 1" invariant fails as stated. -/
theorem C3_invariant_counterexample :
    ¬∃ n : ℤ, 1 ≤ n ∧ (mkDNum M0 5 (1 / 2)).d = (n : ℚ) := by
  rw [mk_half_eval]
  rintro ⟨n, hn, he⟩
  have h1 : (1 : ℚ) ≤ (n : ℚ) := by exact_mod_cast hn
  rw [← he] at h1
  norm_num at h1

theorem Qd_one : Qd 1 := ⟨1, le_refl 1, by norm_num⟩

theorem Qd_nonneg {d : ℚ} (h : Qd d) : 0 ≤ d := by
  rcases h with ⟨n, _, rfl⟩
  positivity

theorem Qd_ge_one {d : ℚ} (h : Qd d) : 1 ≤ d := by
  rcases h with ⟨n, hn, rfl⟩
  exact_mod_cast hn

theorem Qd_add_one {d : ℚ} (h : Qd d) : Qd (d + 1) := by
  rcases h with ⟨n, hn, rfl⟩
  exact ⟨n + 1, le_trans hn (Nat.le_succ n), by push_cast; ring⟩

theorem Qd_sub_one {d : ℚ} (h : Qd d) (h1 : 1 < d) : Qd (d - 1) := by
  rcases h with ⟨n, hn, rfl⟩
  have h2 : 1 < n := by exact_mod_cast h1
  refine ⟨n - 1, by omega, ?_⟩
  have hc : ((n - 1 : ℕ) : ℚ) = (n : ℚ) - 1 := by
    push_cast [Nat.cast_sub (by omega : 1 ≤ n)]
    ring
  rw [hc]

theorem normLoop1_Qd (M : JSMath) (sign logV : ℚ) :
    ∀ (f : ℕ) (s d : ℚ), Qd d → Qd (normLoop1 M sign logV f s d).2
  | 0, _, _, h => h
  | f + 1, s, d, h => by
    rw [normLoop1]
    by_cases hg : |s| ≥ (if d = 1 then (10 : ℚ) ^ 15 else 100)
    · rw [if_pos hg]
      exact normLoop1_Qd M sign logV f _ _ (Qd_add_one h)
    · rw [if_neg hg]
      exact h

theorem normLoop2_Qd (M : JSMath) (sign logV : ℚ) :
    ∀ (f : ℕ) (s d : ℚ), Qd d → Qd (normLoop2 M sign logV f s d).2
  | 0, _, _, h => h
  | f + 1, s, d, h => by
    rw [normLoop2]
    by_cases hg : |s| < 11 / 10 ∧ d > 1
    · rw [if_pos hg]
      exact normLoop2_Qd M sign logV f _ _ (Qd_sub_one h hg.2)
    · rw [if_neg hg]
      exact h

theorem normalize_Qd (M : JSMath) (st : DState) (h : Qd st.d) :
    Qd (normalize M st).d := by
  rw [normalize]
  dsimp only
  split_ifs with h0 hfast
  · exact Qd_one
  · exact h
  · exact normLoop2_Qd M _ _ _ _ _ (normLoop1_Qd M _ _ _ _ _ h)

theorem depositGo_pres (M : JSMath) (cb : DState → ℚ → ℚ → DState)
    (P : DState → Prop)
    (hP : ∀ (st : DState) (b1 : List (ℚ × ℚ)), P st → P { st with buckets := b1 })
    (hcb : ∀ (st1 : DState) (a b : ℚ), P st1 → P (cb st1 a b))
    (st : DState) (v k : ℚ) (h : P st) : P (depositGo M cb st v k) := by
  rw [depositGo]
  dsimp only
  split_ifs with h1 h2 h3 h4
  · exact h
  · exact hP _ _ h
  · exact hcb _ _ _ (hP _ _ h)
  · exact hcb _ _ _ (hP _ _ h)
  · exact hP _ _ h

theorem internalAdd_Qd (M : JSMath) :
    ∀ (f : ℕ) (st : DState) (a b : ℚ),
    Qd st.d → Qd (internalAdd M f st a b).d := by
  intro f
  induction f with
  | zero =>
    intro st a b h
    rw [internalAdd]
    dsimp only
    split_ifs
    all_goals first
      | exact h
      | exact Qd_one
      | exact normalize_Qd M _ h
      | exact depositGo_pres M _ (fun st => Qd st.d) (fun _ _ hq => hq)
          (fun _ _ _ hq => hq) _ _ _ h
  | succ g ih =>
    intro st a b h
    rw [internalAdd]
    dsimp only
    split_ifs
    all_goals first
      | exact h
      | exact Qd_one
      | exact normalize_Qd M _ h
      | exact depositGo_pres M _ (fun st => Qd st.d) (fun _ _ hq => hq)
          (fun st1 a1 b1 hq => ih st1 a1 b1 hq) _ _ _ h

theorem foldl_pres {α : Type} (P : DState → Prop) (g : DState → α → DState)
    (hg : ∀ (st : DState) (a : α), P st → P (g st a)) :
    ∀ (l : List α) (st : DState), P st → P (l.foldl g st)
  | [], _, h => h
  | a :: tl, st, h => foldl_pres P g hg tl (g st a) (hg st a h)

theorem normLoop1_nonneg (M : JSMath) (logV : ℚ)
    (hpow : ∀ e : ℚ, 0 ≤ M.pow 10 e) :
    ∀ (f : ℕ) (s d : ℚ), 0 ≤ s → 0 ≤ (normLoop1 M 1 logV f s d).1
  | 0, _, _, hs => hs
  | f + 1, s, d, hs => by
    rw [normLoop1]
    by_cases hg : |s| ≥ (if d = 1 then (10 : ℚ) ^ 15 else 100)
    · rw [if_pos hg]
      exact normLoop1_nonneg M logV hpow f _ _ (by rw [one_mul]; exact hpow _)
    · rw [if_neg hg]
      exact hs

theorem normLoop2_nonneg (M : JSMath) (logV : ℚ)
    (hpow : ∀ e : ℚ, 0 ≤ M.pow 10 e) :
    ∀ (f : ℕ) (s d : ℚ), 0 ≤ s → 0 ≤ (normLoop2 M 1 logV f s d).1
  | 0, _, _, hs => hs
  | f + 1, s, d, hs => by
    rw [normLoop2]
    by_cases hg : |s| < 11 / 10 ∧ d > 1
    · rw [if_pos hg]
      exact normLoop2_nonneg M logV hpow f _ _ (by rw [one_mul]; exact hpow _)
    · rw [if_neg hg]
      exact hs

theorem normalize_nonneg (M : JSMath) (st : DState)
    (hpow : ∀ e : ℚ, 0 ≤ M.pow 10 e) (hs : 0 ≤ st.s) :
    0 ≤ (normalize M st).s := by
  rw [normalize]
  dsimp only
  have hsign : normSign st.s = 1 := by rw [normSign, if_pos hs]
  rw [hsign]
  split_ifs with h0 hfast
  · exact le_refl 0
  · exact hs
  · exact normLoop2_nonneg M _ hpow _ _ _
      (normLoop1_nonneg M _ hpow _ _ _ hs)

/-- Claim C10: mul and div rebuild the main value as a power of ten, so
the receiver's resulting s is never negative, whatever the original
sign was. -/
theorem C10_mul_div_sign (M : JSMath) (hpow : ∀ e : ℚ, 0 ≤ M.pow 10 e)
    (f : ℕ) (x y : DState) :
    0 ≤ (mulD M f x y).s ∧ 0 ≤ (divD M f x y).s := by
  constructor
  · rw [mulD]
    exact normalize_nonneg M _ hpow (hpow _)
  · rw [divD]
    exact normalize_nonneg M _ hpow (hpow _)

theorem powM0_nonneg : ∀ e : ℚ, 0 ≤ powM0 10 e := by
  intro e
  rw [powM0]
  split_ifs
  · positivity
  · norm_num

theorem C10_mul_div_sign_witness :
    0 ≤ (mulD M0 8 ⟨-5, 1, []⟩ ⟨2, 1, []⟩).s ∧
    0 ≤ (divD M0 8 ⟨-5, 1, []⟩ ⟨2, 1, []⟩).s :=
  C10_mul_div_sign M0 powM0_nonneg 8 ⟨-5, 1, []⟩ ⟨2, 1, []⟩

theorem normLoop1_ge_one (M : JSMath) (sign logV : ℚ)
    (hpow1 : ∀ e : ℚ, 0 ≤ e → 1 ≤ M.pow 10 e)
    (hsign : |sign| = 1) (hlogV : 0 ≤ logV) :
    ∀ (f : ℕ) (s d : ℚ), Qd d → 1 ≤ |s| →
      1 ≤ |(normLoop1 M sign logV f s d).1| ∧ Qd (normLoop1 M sign logV f s d).2
  | 0, _, _, hd, hs => ⟨hs, hd⟩
  | f + 1, s, d, hd, hs => by
    rw [normLoop1]
    by_cases hg : |s| ≥ (if d = 1 then (10 : ℚ) ^ 15 else 100)
    · rw [if_pos hg]
      apply normLoop1_ge_one M sign logV hpow1 hsign hlogV f _ _ (Qd_add_one hd)
      rw [abs_mul, hsign, one_mul]
      have he : (0 : ℚ) ≤ logV / (d + 1) := by
        apply div_nonneg hlogV
        have := Qd_nonneg hd
        linarith
      rw [abs_of_nonneg (le_trans zero_le_one (hpow1 _ he))]
      exact hpow1 _ he
    · rw [if_neg hg]
      exact ⟨hs, hd⟩

theorem normLoop2_ge_one (M : JSMath) (sign logV : ℚ)
    (hpow1 : ∀ e : ℚ, 0 ≤ e → 1 ≤ M.pow 10 e)
    (hsign : |sign| = 1) (hlogV : 0 ≤ logV) :
    ∀ (f : ℕ) (s d : ℚ), Qd d → 1 ≤ |s| →
      1 ≤ |(normLoop2 M sign logV f s d).1| ∧ Qd (normLoop2 M sign logV f s d).2
  | 0, _, _, hd, hs => ⟨hs, hd⟩
  | f + 1, s, d, hd, hs => by
    rw [normLoop2]
    by_cases hg : |s| < 11 / 10 ∧ d > 1
    · rw [if_pos hg]
      apply normLoop2_ge_one M sign logV hpow1 hsign hlogV f _ _ (Qd_sub_one hd hg.2)
      rw [abs_mul, hsign, one_mul]
      have he : (0 : ℚ) ≤ logV / (d - 1) := by
        apply div_nonneg hlogV
        linarith [hg.2]
      rw [abs_of_nonneg (le_trans zero_le_one (hpow1 _ he))]
      exact hpow1 _ he
    · rw [if_neg hg]
      exact ⟨hs, hd⟩

theorem normSign_abs (s : ℚ) : |normSign s| = 1 := by
  rw [normSign]
  split_ifs <;> norm_num

theorem normalize_ge_one (M : JSMath) (st : DState)
    (hpow1 : ∀ e : ℚ, 0 ≤ e → 1 ≤ M.pow 10 e)
    (hlog0 : ∀ x : ℚ, 1 ≤ x → 0 ≤ M.log10 x)
    (hd : Qd st.d) (hs : 1 ≤ |st.s|) :
    1 ≤ |(normalize M st).s| ∧ Qd (normalize M st).d := by
  rw [normalize]
  dsimp only
  have h0 : ¬|st.s| = 0 := by
    intro hc
    rw [hc] at hs
    norm_num at hs
  rw [if_neg h0]
  have hlogV : 0 ≤ st.d * M.log10 |st.s| :=
    mul_nonneg (Qd_nonneg hd) (hlog0 _ hs)
  split_ifs with hfast
  · exact ⟨hs, hd⟩
  · have h1 := normLoop1_ge_one M (normSign st.s) (st.d * M.log10 |st.s|)
      hpow1 (normSign_abs st.s) hlogV (normFuel (st.d * M.log10 |st.s|) st.d)
      st.s st.d hd hs
    exact normLoop2_ge_one M (normSign st.s) (st.d * M.log10 |st.s|)
      hpow1 (normSign_abs st.s) hlogV (normFuel (st.d * M.log10 |st.s|) st.d)
      _ _ h1.2 h1.1

/-- Claim C9: div floors the main value's log subtraction at zero, and
every rescaled ledger bucket is rebuilt from a log floored at zero, so
(for a valid receiver, under the monotone facts of the real log and
pow) the receiver's totalLog after div is never negative. -/
theorem C9_div_floor (M : JSMath)
    (hpow1 : ∀ e : ℚ, 0 ≤ e → 1 ≤ M.pow 10 e)
    (hlog0 : ∀ x : ℚ, 1 ≤ x → 0 ≤ M.log10 x)
    (f : ℕ) (x y : DState) (hQd : Qd x.d) :
    0 ≤ totalLog M (divD M f x y) ∧
    (∀ dim val : ℚ, 0 ≤ divBucketLog M (totalLog M y) dim val) := by
  constructor
  · rw [divD]
    dsimp only
    set st1 := x.buckets.foldl
      (fun st p => internalAdd M f st
        (M.pow 10 (divBucketLog M (totalLog M y) p.1 p.2 / p.1)) p.1)
      { x with buckets := [] } with hst1
    have hqd1 : Qd st1.d := by
      rw [hst1]
      exact foldl_pres (fun st => Qd st.d) _
        (fun st p hq => internalAdd_Qd M f st _ _ hq) _ _ hQd
    have hexp : (0 : ℚ) ≤ max 0 (totalLog M st1 - totalLog M y) / st1.d :=
      div_nonneg (le_max_left _ _) (Qd_nonneg hqd1)
    have hs2 : (1 : ℚ) ≤
        |M.pow 10 (max 0 (totalLog M st1 - totalLog M y) / st1.d)| := by
      rw [abs_of_nonneg (le_trans zero_le_one (hpow1 _ hexp))]
      exact hpow1 _ hexp
    have hfin := normalize_ge_one M
      { st1 with s := M.pow 10 (max 0 (totalLog M st1 - totalLog M y) / st1.d) }
      hpow1 hlog0 hqd1 hs2
    rcases hfin with ⟨habs1, hqd2⟩
    rw [totalLog, jsAbsOr_ne _ _ (by
      intro hc
      rw [hc] at habs1
      norm_num at habs1)]
    exact mul_nonneg (Qd_nonneg hqd2) (hlog0 _ habs1)
  · intro dim val
    exact le_max_left _ _

theorem powM0_ge_one : ∀ e : ℚ, 0 ≤ e → 1 ≤ powM0 10 e := by
  intro e _
  rw [powM0]
  split_ifs
  · exact one_le_pow₀ (by norm_num)
  · norm_num

theorem digCountAux_ge_one : ∀ (f n : ℕ), 1 ≤ digCountAux f n
  | 0, _ => le_refl 1
  | f + 1, n => by
    rw [digCountAux]
    split_ifs
    · exact le_refl 1
    · exact Nat.le_add_right 1 _

theorem qlogM0_nonneg : ∀ x : ℚ, 1 ≤ x → 0 ≤ qlogM0 x := by
  intro x hx
  rw [qlogM0, if_neg (by linarith), if_pos hx]
  have h1 : 1 ≤ digCount (qfloor x).toNat := digCountAux_ge_one _ _
  have h2 : (1 : ℚ) ≤ (digCount (qfloor x).toNat : ℚ) := by exact_mod_cast h1
  linarith

theorem C9_div_floor_witness :
    0 ≤ totalLog M0 (divD M0 8 ⟨5, 1, []⟩ ⟨7, 1, []⟩) :=
  (C9_div_floor M0 powM0_ge_one qlogM0_nonneg 8 ⟨5, 1, []⟩ ⟨7, 1, []⟩
    ⟨1, le_refl 1, by norm_num⟩).1

theorem RealLike.pow10_le_iff {M : JSMath} (RL : RealLike M) {a b : ℚ} :
    M.pow 10 a ≤ M.pow 10 b ↔ a ≤ b :=
  RL.pow10_strictMono.le_iff_le

theorem RealLike.pow10_lt_iff {M : JSMath} (RL : RealLike M) {a b : ℚ} :
    M.pow 10 a < M.pow 10 b ↔ a < b :=
  RL.pow10_strictMono.lt_iff_lt

theorem RealLike.pow10_ge_iff {M : JSMath} (RL : RealLike M) {a b : ℚ} :
    M.pow 10 a ≥ M.pow 10 b ↔ a ≥ b :=
  RL.pow10_le_iff

theorem RealLike.pow10_zero {M : JSMath} (RL : RealLike M) :
    M.pow 10 0 = 1 := by
  have h := RL.pow10_int 0
  simpa using h

theorem RealLike.pow10_one {M : JSMath} (RL : RealLike M) :
    M.pow 10 1 = 10 := by
  have h := RL.pow10_int 1
  simpa using h

theorem RealLike.pow10_two {M : JSMath} (RL : RealLike M) :
    M.pow 10 2 = 100 := by
  have h := RL.pow10_int 2
  rw [show ((2 : ℤ) : ℚ) = 2 by norm_num] at h
  rw [h]
  norm_num

theorem RealLike.pow10_fifteen {M : JSMath} (RL : RealLike M) :
    M.pow 10 15 = (10 : ℚ) ^ 15 := by
  have h := RL.pow10_int 15
  rw [show ((15 : ℤ) : ℚ) = 15 by norm_num] at h
  rw [h]
  norm_num

/-- Specification of the first normalize loop: starting from a state
whose side is the power of ten of logV / d, with enough fuel, the loop
exits with its guard false, the side still in power form, and the
dimension bounded. -/
theorem normLoop1_spec (M : JSMath) (RL : RealLike M) (sign logV : ℚ)
    (hsign : |sign| = 1) :
    ∀ (f : ℕ) (s d : ℚ), Qd d → |s| = M.pow 10 (logV / d) →
      logV / 2 < d + f →
      Qd (normLoop1 M sign logV f s d).2 ∧
      d ≤ (normLoop1 M sign logV f s d).2 ∧
      |(normLoop1 M sign logV f s d).1| =
        M.pow 10 (logV / (normLoop1 M sign logV f s d).2) ∧
      ¬(|(normLoop1 M sign logV f s d).1| ≥
        (if (normLoop1 M sign logV f s d).2 = 1 then (10 : ℚ) ^ 15 else 100)) ∧
      (normLoop1 M sign logV f s d).2 ≤ max d (logV / 2 + 1) := by
  intro f
  induction f with
  | zero =>
    intro s d hd hs hf
    rw [show normLoop1 M sign logV 0 s d = (s, d) from rfl]
    dsimp only
    push_cast at hf
    refine ⟨hd, le_refl d, hs, ?_, le_max_left _ _⟩
    intro hguard
    have hd1 : (1 : ℚ) ≤ d := Qd_ge_one hd
    have hdpos : (0 : ℚ) < d := by linarith
    by_cases h1 : d = 1
    · rw [if_pos h1] at hguard
      rw [hs, ← RL.pow10_fifteen, RL.pow10_ge_iff, h1, div_one] at hguard
      rw [h1] at hf
      linarith
    · rw [if_neg h1] at hguard
      rw [hs, ← RL.pow10_two, RL.pow10_ge_iff, ge_iff_le,
        le_div_iff hdpos] at hguard
      linarith
  | succ f ih =>
    intro s d hd hs hf
    rw [normLoop1]
    by_cases hguard : |s| ≥ (if d = 1 then (10 : ℚ) ^ 15 else 100)
    · rw [if_pos hguard]
      have hd1 : (1 : ℚ) ≤ d := Qd_ge_one hd
      have hdpos : (0 : ℚ) < d := by linarith
      have hdle : d ≤ logV / 2 := by
        by_cases h1 : d = 1
        · rw [if_pos h1] at hguard
          rw [hs, ← RL.pow10_fifteen, RL.pow10_ge_iff, h1, div_one] at hguard
          rw [h1]
          linarith
        · rw [if_neg h1] at hguard
          rw [hs, ← RL.pow10_two, RL.pow10_ge_iff, ge_iff_le,
            le_div_iff hdpos] at hguard
          linarith
      have hs' : |sign * M.pow 10 (logV / (d + 1))| =
          M.pow 10 (logV / (d + 1)) := by
        rw [abs_mul, hsign, one_mul,
          abs_of_pos (RL.pow10_pos (logV / (d + 1)))]
      have hf' : logV / 2 < (d + 1) + f := by
        push_cast at hf ⊢
        linarith
      have hres := ih (sign * M.pow 10 (logV / (d + 1))) (d + 1)
        (Qd_add_one hd) hs' hf'
      refine ⟨hres.1, le_trans (by linarith) hres.2.1, hres.2.2.1,
        hres.2.2.2.1, ?_⟩
      have hb := hres.2.2.2.2
      have hmx : max (d + 1) (logV / 2 + 1) = logV / 2 + 1 := by
        apply max_eq_right
        linarith
      rw [hmx] at hb
      exact le_trans hb (le_max_right _ _)
    · rw [if_neg hguard]
      exact ⟨hd, le_refl d, hs, hguard, le_max_left _ _⟩

/-- Specification of the second normalize loop (fuel at least the
integer dimension): it exits with its guard false, the side in power
form, and a side below 100 whenever it moved at all. -/
theorem normLoop2_spec (M : JSMath) (RL : RealLike M) (sign logV : ℚ)
    (hsign : |sign| = 1) :
    ∀ (f : ℕ) (n : ℕ) (s d : ℚ), 1 ≤ n → d = (n : ℚ) → n ≤ f →
      |s| = M.pow 10 (logV / d) →
      Qd (normLoop2 M sign logV f s d).2 ∧
      |(normLoop2 M sign logV f s d).1| =
        M.pow 10 (logV / (normLoop2 M sign logV f s d).2) ∧
      ¬(|(normLoop2 M sign logV f s d).1| < 11 / 10 ∧
        (normLoop2 M sign logV f s d).2 > 1) ∧
      (((normLoop2 M sign logV f s d).2 = d ∧
        (normLoop2 M sign logV f s d).1 = s) ∨
        |(normLoop2 M sign logV f s d).1| < 100) := by
  intro f
  induction f with
  | zero =>
    intro n s d hn hdn hf hs
    omega
  | succ f ih =>
    intro n s d hn hdn hf hs
    rw [normLoop2]
    by_cases hguard : |s| < 11 / 10 ∧ d > 1
    · rw [if_pos hguard]
      have hn2 : 2 ≤ n := by
        have : (1 : ℚ) < (n : ℚ) := hdn ▸ hguard.2
        exact_mod_cast this
      have hd2 : (2 : ℚ) ≤ d := by
        rw [hdn]
        exact_mod_cast hn2
      have hdm1 : d - 1 = ((n - 1 : ℕ) : ℚ) := by
        rw [hdn]
        push_cast [Nat.cast_sub (by omega : 1 ≤ n)]
        ring
      -- the recomputed exponent stays below 2
      have hlam := RL.pow10_log10 (11 / 10) (by norm_num)
      have hlampos : 0 < M.log10 (11 / 10) := by
        by_contra hc
        push_neg at hc
        have h1 : M.pow 10 (M.log10 (11 / 10)) ≤ M.pow 10 0 :=
          RL.pow10_le_iff.mpr hc
        rw [hlam, RL.pow10_zero] at h1
        norm_num at h1
      have hlamle : M.log10 (11 / 10) ≤ 1 := by
        by_contra hc
        push_neg at hc
        have h1 : M.pow 10 1 < M.pow 10 (M.log10 (11 / 10)) :=
          RL.pow10_lt_iff.mpr hc
        rw [hlam, RL.pow10_one] at h1
        norm_num at h1
      have hexplt : logV / d < M.log10 (11 / 10) := by
        rw [← RL.pow10_lt_iff, ← hs, hlam]
        exact hguard.1
      have hnew_lt_two : logV / (d - 1) < 2 := by
        by_cases hlv : logV ≤ 0
        · have : logV / (d - 1) ≤ 0 := by
            apply div_nonpos_of_nonpos_of_nonneg hlv
            linarith
          linarith
        · push_neg at hlv
          have hdpos : (0 : ℚ) < d := by linarith
          have h1 : logV < d * M.log10 (11 / 10) := by
            rw [div_lt_iff hdpos] at hexplt
            linarith [hexplt]
          have h2 : d ≤ 2 * (d - 1) := by linarith
          have hdm1pos : (0 : ℚ) < d - 1 := by linarith
          have h3 : logV / (d - 1) < d * M.log10 (11 / 10) / (d - 1) :=
            (div_lt_div_iff_of_pos_right hdm1pos).mpr h1
          have h4 : d * M.log10 (11 / 10) / (d - 1) ≤ 2 * M.log10 (11 / 10) := by
            rw [div_le_iff hdm1pos]
            nlinarith [hlampos]
          nlinarith [hlampos]
      have hs' : |sign * M.pow 10 (logV / (d - 1))| =
          M.pow 10 (logV / (d - 1)) := by
        rw [abs_mul, hsign, one_mul,
          abs_of_pos (RL.pow10_pos (logV / (d - 1)))]
      have hlt100 : |sign * M.pow 10 (logV / (d - 1))| < 100 := by
        rw [hs', ← RL.pow10_two]
        exact RL.pow10_lt_iff.mpr hnew_lt_two
      have hres := ih (n - 1) (sign * M.pow 10 (logV / (d - 1))) (d - 1)
        (by omega) hdm1 (by omega) (hdm1 ▸ hs')
      refine ⟨hres.1, hres.2.1, hres.2.2.1, ?_⟩
      rcases hres.2.2.2 with hsame | hlt
      · right
        rw [hsame.2]
        exact hlt100
      · right
        exact hlt
    · rw [if_neg hguard]
      exact ⟨⟨n, hn, hdn⟩, hs, hguard, Or.inl ⟨rfl, rfl⟩⟩

theorem qceil_eq (q : ℚ) : qceil q = ⌈q⌉ := by
  rw [qceil, qfloor_eq, Int.floor_neg, neg_neg]

theorem toNat_qceil_ge (x : ℚ) (hx : 0 ≤ x) :
    x ≤ ((qceil x).toNat : ℚ) := by
  rw [qceil_eq]
  have h2 : (0 : ℤ) ≤ ⌈x⌉ := Int.ceil_nonneg hx
  have h3 : ((⌈x⌉.toNat : ℤ) : ℚ) = ((⌈x⌉ : ℤ) : ℚ) := by
    rw [Int.toNat_of_nonneg h2]
  calc x ≤ ((⌈x⌉ : ℤ) : ℚ) := Int.le_ceil x
    _ = ((⌈x⌉.toNat : ℤ) : ℚ) := h3.symm
    _ = (⌈x⌉.toNat : ℚ) := by push_cast; ring

theorem Pinv_zero_branch (st : DState) : Pinv { st with s := 0, d := 1 } := by
  refine ⟨Qd_one, fun _ => rfl, fun _ => by norm_num, fun h => ?_⟩
  norm_num at h

/-- normalize establishes the representation invariant from any state
with a valid dimension, under the RealLike facts. -/
theorem normalize_P (M : JSMath) (RL : RealLike M) (st : DState)
    (hd : Qd st.d) : Pinv (normalize M st) := by
  rw [normalize]
  dsimp only
  by_cases h0 : |st.s| = 0
  · rw [if_pos h0]
    exact Pinv_zero_branch st
  · rw [if_neg h0]
    by_cases hfast : st.d = 1 ∧ |st.s| < (10 : ℚ) ^ 15 ∧ |st.s| > 1 / 10 ^ 10
    · rw [if_pos hfast]
      refine ⟨hd, fun _ => hfast.1, fun _ => le_of_lt hfast.2.1, fun hgt => ?_⟩
      rw [hfast.1] at hgt
      norm_num at hgt
    · rw [if_neg hfast]
      have hspos : 0 < |st.s| := lt_of_le_of_ne (abs_nonneg _) (Ne.symm h0)
      have hd1 : (1 : ℚ) ≤ st.d := Qd_ge_one hd
      have hdpos : (0 : ℚ) < st.d := by linarith
      have hs0 : |st.s| = M.pow 10 (st.d * M.log10 |st.s| / st.d) := by
        rw [mul_div_cancel_left₀ _ (ne_of_gt hdpos)]
        exact (RL.pow10_log10 _ hspos).symm
      have hca : abs (st.d * M.log10 |st.s|) ≤
          ((qceil (abs (st.d * M.log10 |st.s|))).toNat : ℚ) :=
        toNat_qceil_ge _ (abs_nonneg _)
      have hcb : st.d ≤ ((qceil |st.d|).toNat : ℚ) := by
        calc st.d ≤ |st.d| := le_abs_self st.d
          _ ≤ _ := toNat_qceil_ge _ (abs_nonneg _)
      have hFa : ((qceil (abs (st.d * M.log10 |st.s|))).toNat : ℚ) + 1 ≤
          ((normFuel (st.d * M.log10 |st.s|) st.d : ℕ) : ℚ) := by
        rw [normFuel]
        push_cast
        have : (0 : ℚ) ≤ ((qceil |st.d|).toNat : ℚ) := by positivity
        linarith
      have hFb : st.d < ((normFuel (st.d * M.log10 |st.s|) st.d : ℕ) : ℚ) := by
        rw [normFuel]
        push_cast
        have h1 : (0 : ℚ) ≤ ((qceil (abs (st.d * M.log10 |st.s|))).toNat : ℚ) := by
          positivity
        linarith
      have hhalf : st.d * M.log10 |st.s| / 2 ≤ abs (st.d * M.log10 |st.s|) := by
        rw [div_le_iff (by norm_num : (0 : ℚ) < 2)]
        calc st.d * M.log10 |st.s| ≤ abs (st.d * M.log10 |st.s|) :=
          le_abs_self _
          _ ≤ abs (st.d * M.log10 |st.s|) * 2 := by
            nlinarith [abs_nonneg (st.d * M.log10 |st.s|)]
      have hf1 : st.d * M.log10 |st.s| / 2 <
          st.d + (normFuel (st.d * M.log10 |st.s|) st.d : ℚ) := by
        linarith
      have hl1 := normLoop1_spec M RL (normSign st.s) (st.d * M.log10 |st.s|)
        (normSign_abs st.s) (normFuel (st.d * M.log10 |st.s|) st.d)
        st.s st.d hd hs0 hf1
      set p1 := normLoop1 M (normSign st.s) (st.d * M.log10 |st.s|)
        (normFuel (st.d * M.log10 |st.s|) st.d) st.s st.d with hp1
      obtain ⟨n1, hn1, hdn1⟩ := hl1.1
      have hf2 : n1 ≤ normFuel (st.d * M.log10 |st.s|) st.d := by
        have hb := hl1.2.2.2.2
        have h2 : (n1 : ℚ) ≤ (normFuel (st.d * M.log10 |st.s|) st.d : ℚ) := by
          rw [← hdn1]
          apply le_trans hb
          apply max_le
          · linarith
          · linarith
        exact_mod_cast h2
      have hl2 := normLoop2_spec M RL (normSign st.s) (st.d * M.log10 |st.s|)
        (normSign_abs st.s) (normFuel (st.d * M.log10 |st.s|) st.d) n1
        p1.1 p1.2 hn1 hdn1 hf2 hl1.2.2.1
      set p2 := normLoop2 M (normSign st.s) (st.d * M.log10 |st.s|)
        (normFuel (st.d * M.log10 |st.s|) st.d) p1.1 p1.2 with hp2
      refine ⟨hl2.1, ?_, ?_, ?_⟩
      · intro hc
        have hc1 : p2.1 = 0 := hc
        have h := hl2.2.1
        rw [hc1, abs_zero] at h
        have hpos := RL.pow10_pos (st.d * M.log10 |st.s| / p2.2)
        rw [← h] at hpos
        exact absurd hpos (lt_irrefl 0)
      · intro hd1'
        have hd1c : p2.2 = 1 := hd1'
        rcases hl2.2.2.2 with ⟨heq, hseq⟩ | hlt
        · have hg := hl1.2.2.2.1
          rw [← heq, hd1c, if_pos rfl, ← hseq] at hg
          exact le_of_not_le hg
        · exact le_trans (le_of_lt hlt) (by norm_num)
      · intro hgt
        have hgtc : (1 : ℚ) < p2.2 := hgt
        constructor
        · by_contra hc
          push_neg at hc
          exact hl2.2.2.1 ⟨hc, hgtc⟩
        · rcases hl2.2.2.2 with ⟨heq, hseq⟩ | hlt
          · have hg := hl1.2.2.2.1
            have hne1 : ¬p1.2 = 1 := by
              rw [← heq]
              intro hcc
              rw [hcc] at hgtc
              norm_num at hgtc
            rw [if_neg hne1, ← hseq] at hg
            exact lt_of_not_le hg
          · exact hlt

theorem internalAdd_P (M : JSMath) (RL : RealLike M) :
    ∀ (f : ℕ) (st : DState) (a b : ℚ), Pinv st → Pinv (internalAdd M f st a b) := by
  intro f
  induction f with
  | zero =>
    intro st a b h
    rw [internalAdd]
    dsimp only
    by_cases h1 : a = 0
    · rw [if_pos h1]
      exact h
    · rw [if_neg h1]
      by_cases h2 : st.d = 1 ∧ b = 1
      · rw [if_pos h2]
        by_cases h3 : M.log10 (jsAbsOr st.s (1 / 10 ^ 20)) -
            M.log10 (jsAbsOr a (1 / 10 ^ 20)) > 15
        · rw [if_pos h3]
          exact depositGo_pres M _ Pinv (fun _ _ hq => hq)
            (fun _ _ _ hq => hq) _ _ _ h
        · rw [if_neg h3]
          by_cases h4 : |st.s + a| > (10 : ℚ) ^ 15
          · rw [if_pos h4]
            exact normalize_P M RL _ h.1
          · rw [if_neg h4]
            refine ⟨h.1, fun _ => h2.1, fun _ => not_lt.mp h4, fun hgt => ?_⟩
            have : (1 : ℚ) < st.d := hgt
            rw [h2.1] at this
            norm_num at this
      · rw [if_neg h2]
        split_ifs
        all_goals first
          | exact depositGo_pres M _ Pinv (fun _ _ hq => hq)
              (fun _ _ _ hq => hq) _ _ _ h
          | exact Pinv_zero_branch st
          | exact normalize_P M RL _ h.1
  | succ g ih =>
    intro st a b h
    rw [internalAdd]
    dsimp only
    by_cases h1 : a = 0
    · rw [if_pos h1]
      exact h
    · rw [if_neg h1]
      by_cases h2 : st.d = 1 ∧ b = 1
      · rw [if_pos h2]
        by_cases h3 : M.log10 (jsAbsOr st.s (1 / 10 ^ 20)) -
            M.log10 (jsAbsOr a (1 / 10 ^ 20)) > 15
        · rw [if_pos h3]
          exact depositGo_pres M _ Pinv (fun _ _ hq => hq)
            (fun st1 a1 b1 hq => ih st1 a1 b1 hq) _ _ _ h
        · rw [if_neg h3]
          by_cases h4 : |st.s + a| > (10 : ℚ) ^ 15
          · rw [if_pos h4]
            exact normalize_P M RL _ h.1
          · rw [if_neg h4]
            refine ⟨h.1, fun _ => h2.1, fun _ => not_lt.mp h4, fun hgt => ?_⟩
            have : (1 : ℚ) < st.d := hgt
            rw [h2.1] at this
            norm_num at this
      · rw [if_neg h2]
        split_ifs
        all_goals first
          | exact depositGo_pres M _ Pinv (fun _ _ hq => hq)
              (fun st1 a1 b1 hq => ih st1 a1 b1 hq) _ _ _ h
          | exact Pinv_zero_branch st
          | exact normalize_P M RL _ h.1

theorem addD_P (M : JSMath) (RL : RealLike M) (f : ℕ) (x y : DState)
    (h : Pinv x) : Pinv (addD M f x y) := by
  rw [addD]
  exact foldl_pres Pinv _ (fun st p hq => internalAdd_P M RL f st p.2 p.1 hq)
    _ _ (internalAdd_P M RL f x y.s y.d h)

theorem subD_P (M : JSMath) (RL : RealLike M) (f : ℕ) (x y : DState)
    (h : Pinv x) : Pinv (subD M f x y) := by
  rw [subD]
  exact foldl_pres Pinv _ (fun st p hq => internalAdd_P M RL f st (-p.2) p.1 hq)
    _ _ (internalAdd_P M RL f x (-y.s) y.d h)

theorem mulD_P (M : JSMath) (RL : RealLike M) (f : ℕ) (x y : DState)
    (h : Qd x.d) : Pinv (mulD M f x y) := by
  rw [mulD]
  dsimp only
  apply normalize_P M RL
  exact foldl_pres (fun st => Qd st.d) _
    (fun st p hq => internalAdd_Qd M f st _ _ hq) _ _ h

theorem divD_P (M : JSMath) (RL : RealLike M) (f : ℕ) (x y : DState)
    (h : Qd x.d) : Pinv (divD M f x y) := by
  rw [divD]
  dsimp only
  apply normalize_P M RL
  exact foldl_pres (fun st => Qd st.d) _
    (fun st p hq => internalAdd_Qd M f st _ _ hq) _ _ h

theorem Qd_max_one_int (z : ℤ) : Qd (max 1 (z : ℚ)) := by
  rcases le_or_lt ((z : ℤ) : ℚ) 1 with hle | hlt
  · rw [max_eq_left hle]
    exact Qd_one
  · rw [max_eq_right (le_of_lt hlt)]
    have hz : (1 : ℤ) < z := by exact_mod_cast hlt
    refine ⟨z.toNat, by omega, ?_⟩
    have h0 : (0 : ℤ) ≤ z := by omega
    have hc : ((z.toNat : ℤ) : ℚ) = ((z : ℤ) : ℚ) := by
      rw [Int.toNat_of_nonneg h0]
    rw [← hc]
    push_cast
    ring

theorem fromLogD_P (M : JSMath) (RL : RealLike M) (logV : ℚ) :
    Pinv (fromLogD M logV) := by
  rw [fromLogD]
  dsimp only
  split_ifs with h1
  · exact normalize_P M RL _ Qd_one
  · exact normalize_P M RL _ (Qd_max_one_int _)

theorem fromAnyD_P (M : JSMath) (RL : RealLike M) (q : ℚ) :
    Pinv (fromAnyD M q) := by
  rw [fromAnyD]
  dsimp only
  split_ifs
  all_goals first
    | exact normalize_P M RL _ Qd_one
    | exact normalize_P M RL _ (Qd_max_one_int _)

theorem deserializeD_P (M : JSMath) (RL : RealLike M) (f : ℕ)
    (data : SerialForm) (hd : Qd data.d) : Pinv (deserializeD M f data) := by
  rw [deserializeD]
  refine foldl_pres Pinv _ (fun st p hq => ?_) _ _ (normalize_P M RL _ hd)
  rw [tracerDeposit]
  exact depositGo_pres M _ Pinv (fun _ _ hq1 => hq1)
    (fun st1 a1 b1 hq1 => internalAdd_P M RL f st1 a1 b1 hq1) _ _ _ hq

theorem Pinv_mul_sign (res : DState) (h : Pinv res) (sgn : ℚ)
    (hsgn : sgn = 1 ∨ sgn = -1) : Pinv { res with s := res.s * sgn } := by
  have habs : |res.s * sgn| = |res.s| := by
    rcases hsgn with rfl | rfl
    · rw [mul_one]
    · rw [abs_mul]
      norm_num
  have hzero : res.s * sgn = 0 ↔ res.s = 0 := by
    rcases hsgn with rfl | rfl <;> constructor <;> intro hh <;>
      first
        | simpa using hh
        | simp [hh]
  refine ⟨h.1, fun hz => h.2.1 (hzero.mp hz), fun hd1 => ?_, fun hgt => ?_⟩
  · rw [show ({ res with s := res.s * sgn } : DState).s = res.s * sgn from rfl,
      habs]
    exact h.2.2.1 hd1
  · rw [show ({ res with s := res.s * sgn } : DState).s = res.s * sgn from rfl,
      habs]
    exact h.2.2.2 hgt

theorem powD_P (M : JSMath) (RL : RealLike M) (f : ℕ) (st : DState) (n : ℚ)
    (hq : Qd st.d) : Pinv (powD M f st n) := by
  rw [powD]
  dsimp only
  split_ifs with h1 h2 h3 h4
  · exact normalize_P M RL _ Qd_one
  · exact fromAnyD_P M RL 1
  · exact deserializeD_P M RL f _ hq
  · exact Pinv_mul_sign _ (fromLogD_P M RL _) _ (Or.inr rfl)
  · exact Pinv_mul_sign _ (fromLogD_P M RL _) _ (Or.inl rfl)

theorem sqrtD_P (M : JSMath) (RL : RealLike M) (st y : DState)
    (h : sqrtD M st = some y) : Pinv y := by
  rw [sqrtD] at h
  split_ifs at h with h1 h2 h3
  · injection h with h
    rw [← h]
    exact normalize_P M RL _ Qd_one
  · injection h with h
    rw [← h]
    exact fromAnyD_P M RL _
  · injection h with h
    rw [← h]
    exact fromLogD_P M RL _

theorem getDistanceD_P (M : JSMath) (RL : RealLike M) (a b : DState) :
    Pinv (getDistanceD M a b) := by
  rw [getDistanceD]
  dsimp only
  split_ifs with h1 h2
  · exact normalize_P M RL _ Qd_one
  · exact fromLogD_P M RL _
  · exact fromLogD_P M RL _

theorem collapseStep_Qd (M : JSMath) (f : ℕ)
    (acc : List (ℚ × ℚ) × DState) (dim : ℚ) (h : Qd acc.2.d) :
    Qd ((collapseStep M f acc dim).2).d := by
  rw [collapseStep]
  cases hmg : mapGet acc.1 dim with
  | none => exact h
  | some val =>
    dsimp only
    split_ifs with hv hc
    · exact h
    · exact internalAdd_Qd M f _ _ _ h
    · exact h

theorem collapse_fold_Qd (M : JSMath) (f : ℕ) :
    ∀ (dims : List ℚ) (acc : List (ℚ × ℚ) × DState), Qd acc.2.d →
      Qd ((dims.foldl (collapseStep M f) acc).2).d
  | [], _, h => h
  | dim :: tl, acc, h =>
    collapse_fold_Qd M f tl _ (collapseStep_Qd M f acc dim h)

theorem collapseD_P (M : JSMath) (RL : RealLike M) (f : ℕ) (x : DState)
    (h : Qd x.d) : Pinv (collapseD M f x) := by
  rw [collapseD]
  exact normalize_P M RL _ (collapse_fold_Qd M f _ _ h)

theorem fromStyledStringD_P (M : JSMath) (RL : RealLike M) (styled : String) :
    Pinv (fromStyledStringD M styled) := by
  rw [fromStyledStringD]
  apply normalize_P M RL
  cases hp : parseDigits (classifyStyled styled).1 with
  | none => exact Qd_one
  | some n =>
    dsimp only
    split_ifs with hz
    · exact Qd_one
    · exact ⟨n, by omega, rfl⟩

/-- Claim C3 (amended): every reachable state satisfies the
representation invariant, under the order-embedding facts of the real
log10/pow (RealLike) and with the constructor and deserialize entry
points restricted to integer dimensions at least 1. -/
theorem C3_invariant_amended (M : JSMath) (RL : RealLike M) (st : DState)
    (h : Reach M st) : Pinv st := by
  induction h with
  | ctor s n hn => exact normalize_P M RL _ ⟨n, hn, rfl⟩
  | fromAny q => exact fromAnyD_P M RL q
  | fromLog q => exact fromLogD_P M RL q
  | fromStyled str => exact fromStyledStringD_P M RL str
  | deserialize s n hn bs f => exact deserializeD_P M RL f _ ⟨n, hn, rfl⟩
  | add x y f hx ihx => exact addD_P M RL f x y ihx
  | sub x y f hx ihx => exact subD_P M RL f x y ihx
  | mul x y f hx ihx => exact mulD_P M RL f x y ihx.1
  | div x y f hx ihx => exact divD_P M RL f x y ihx.1
  | pow x n f hx ihx => exact powD_P M RL f x n ihx.1
  | sqrt x y hx hsq ihx => exact sqrtD_P M RL x y hsq
  | collapse x f hx ihx => exact collapseD_P M RL f x ihx.1
  | dist a b => exact getDistanceD_P M RL a b

theorem ratFloorLog10_spec (q : ℚ) (hq : 0 < q) :
    (10 : ℚ) ^ ratFloorLog10 q ≤ q ∧ q < (10 : ℚ) ^ (ratFloorLog10 q + 1) := by
  rw [ratFloorLog10]
  by_cases h1 : 1 ≤ q
  · rw [if_pos h1]
    have hfl : (1 : ℤ) ≤ ⌊q⌋ := by
      rw [Int.le_floor]
      exact_mod_cast h1
    have hn0 : (qfloor q).toNat ≠ 0 := by
      rw [qfloor_eq]
      omega
    have hcast : ((qfloor q).toNat : ℤ) = ⌊q⌋ := by
      rw [qfloor_eq]
      omega
    constructor
    · have hlow : (10 : ℕ) ^ Nat.log 10 (qfloor q).toNat ≤ (qfloor q).toNat :=
        Nat.pow_log_le_self 10 hn0
      have hlow2 : ((10 : ℚ) ^ (Nat.log 10 (qfloor q).toNat : ℕ)) ≤
          (((qfloor q).toNat : ℕ) : ℚ) := by exact_mod_cast hlow
      calc (10 : ℚ) ^ (Nat.log 10 (qfloor q).toNat : ℤ)
          = (10 : ℚ) ^ (Nat.log 10 (qfloor q).toNat : ℕ) := zpow_natCast _ _
        _ ≤ (((qfloor q).toNat : ℕ) : ℚ) := hlow2
        _ = ((⌊q⌋ : ℤ) : ℚ) := by exact_mod_cast hcast
        _ ≤ q := Int.floor_le q
    · have hup : (qfloor q).toNat < (10 : ℕ) ^ (Nat.log 10 (qfloor q).toNat + 1) :=
        Nat.lt_pow_succ_log_self (by norm_num) _
      have hup2 : (((qfloor q).toNat : ℕ) : ℚ) + 1 ≤
          ((10 : ℚ) ^ ((Nat.log 10 (qfloor q).toNat + 1 : ℕ) : ℕ)) := by
        exact_mod_cast hup
      calc q < ((⌊q⌋ : ℤ) : ℚ) + 1 := Int.lt_floor_add_one q
        _ = (((qfloor q).toNat : ℕ) : ℚ) + 1 := by
            rw [show (((qfloor q).toNat : ℕ) : ℚ) = ((⌊q⌋ : ℤ) : ℚ) from by
              exact_mod_cast hcast]
        _ ≤ (10 : ℚ) ^ ((Nat.log 10 (qfloor q).toNat + 1 : ℕ) : ℕ) := hup2
        _ = (10 : ℚ) ^ ((Nat.log 10 (qfloor q).toNat : ℤ) + 1) := by
            rw [show ((Nat.log 10 (qfloor q).toNat : ℤ) + 1) =
              ((Nat.log 10 (qfloor q).toNat + 1 : ℕ) : ℤ) by push_cast; ring,
              zpow_natCast]
  · rw [if_neg h1]
    dsimp only
    push_neg at h1
    set L : ℤ := (Nat.log 10 (qfloor (1 / q)).toNat : ℤ) with hL
    have hr1 : 1 < 1 / q := (one_lt_div hq).mpr h1
    have hfl : (1 : ℤ) ≤ ⌊1 / q⌋ := by
      rw [Int.le_floor]
      exact_mod_cast le_of_lt hr1
    have hm0 : (qfloor (1 / q)).toNat ≠ 0 := by
      rw [qfloor_eq]
      omega
    have hcast : ((qfloor (1 / q)).toNat : ℤ) = ⌊1 / q⌋ := by
      rw [qfloor_eq]
      omega
    have hP : (0 : ℚ) < (10 : ℚ) ^ L := zpow_pos (by norm_num) _
    have hsplit : (10 : ℚ) ^ (L + 1) = (10 : ℚ) ^ L * 10 :=
      zpow_add_one₀ (by norm_num) L
    have hlowr : (10 : ℚ) ^ L ≤ 1 / q := by
      have hlow : (10 : ℕ) ^ Nat.log 10 (qfloor (1 / q)).toNat ≤
          (qfloor (1 / q)).toNat := Nat.pow_log_le_self 10 hm0
      have hlow2 : ((10 : ℚ) ^ (Nat.log 10 (qfloor (1 / q)).toNat : ℕ)) ≤
          (((qfloor (1 / q)).toNat : ℕ) : ℚ) := by exact_mod_cast hlow
      calc (10 : ℚ) ^ L = (10 : ℚ) ^ (Nat.log 10 (qfloor (1 / q)).toNat : ℕ) :=
          zpow_natCast _ _
        _ ≤ (((qfloor (1 / q)).toNat : ℕ) : ℚ) := hlow2
        _ = ((⌊1 / q⌋ : ℤ) : ℚ) := by exact_mod_cast hcast
        _ ≤ 1 / q := Int.floor_le _
    have hupr : 1 / q < (10 : ℚ) ^ L * 10 := by
      have hup : (qfloor (1 / q)).toNat <
          (10 : ℕ) ^ (Nat.log 10 (qfloor (1 / q)).toNat + 1) :=
        Nat.lt_pow_succ_log_self (by norm_num) _
      have hup2 : (((qfloor (1 / q)).toNat : ℕ) : ℚ) + 1 ≤
          (10 : ℚ) ^ ((Nat.log 10 (qfloor (1 / q)).toNat + 1 : ℕ) : ℕ) := by
        exact_mod_cast hup
      calc 1 / q < ((⌊1 / q⌋ : ℤ) : ℚ) + 1 := Int.lt_floor_add_one _
        _ = (((qfloor (1 / q)).toNat : ℕ) : ℚ) + 1 := by
            rw [show (((qfloor (1 / q)).toNat : ℕ) : ℚ) = ((⌊1 / q⌋ : ℤ) : ℚ) from by
              exact_mod_cast hcast]
        _ ≤ (10 : ℚ) ^ ((Nat.log 10 (qfloor (1 / q)).toNat + 1 : ℕ) : ℕ) := hup2
        _ = (10 : ℚ) ^ (L + 1) := by
            rw [show (L + 1 : ℤ) =
              ((Nat.log 10 (qfloor (1 / q)).toNat + 1 : ℕ) : ℤ) by
                rw [hL]; push_cast; ring,
              zpow_natCast]
        _ = (10 : ℚ) ^ L * 10 := hsplit
    have hq_le : q ≤ ((10 : ℚ) ^ L)⁻¹ := by
      have hmul : (10 : ℚ) ^ L * q ≤ 1 := (le_div_iff hq).mp hlowr
      rw [inv_eq_one_div, le_div_iff hP]
      linarith [hmul]
    have hq_gt : ((10 : ℚ) ^ L * 10)⁻¹ < q := by
      have hmul : 1 < (10 : ℚ) ^ L * 10 * q := by
        have h2 := (div_lt_iff hq).mp hupr
        linarith
      rw [inv_eq_one_div, div_lt_iff (by positivity)]
      linarith
    by_cases hcond : (10 : ℚ) ^ (-L) ≤ q
    · rw [if_pos hcond]
      refine ⟨hcond, ?_⟩
      have hmono : (10 : ℚ) ^ (-L) < (10 : ℚ) ^ (-L + 1) :=
        zpow_lt_zpow_right₀ (by norm_num) (by omega)
      have hq_le2 : q ≤ (10 : ℚ) ^ (-L) := by
        rw [zpow_neg]
        exact hq_le
      linarith
    · rw [if_neg hcond]
      push_neg at hcond
      constructor
      · have hgt : (10 : ℚ) ^ (-(L + 1)) < q := by
          rw [zpow_neg, hsplit]
          exact hq_gt
        linarith
      · rw [show (-(L + 1) + 1 : ℤ) = -L by ring]
        exact hcond

theorem MR_pow10_eq (e : ℚ) : MR.pow 10 e = MRpow10 e := by
  show MRpow 10 e = MRpow10 e
  rw [MRpow, if_pos rfl]

theorem MRpow10_pos (e : ℚ) : 0 < MRpow10 e := by
  rw [MRpow10, qfloor_eq]
  have h1 : (0 : ℚ) ≤ e - (⌊e⌋ : ℚ) := by
    have := Int.floor_le e
    linarith
  have h2 : (0 : ℚ) < (10 : ℚ) ^ ⌊e⌋ := zpow_pos (by norm_num) _
  nlinarith

theorem MRpow10_fract_lt (e : ℚ) : MRpow10 e < (10 : ℚ) ^ (⌊e⌋ + 1) := by
  rw [MRpow10, qfloor_eq, zpow_add_one₀ (by norm_num : (10 : ℚ) ≠ 0)]
  have h1 : e - (⌊e⌋ : ℚ) < 1 := by
    have := Int.lt_floor_add_one e
    linarith
  have h2 : (0 : ℚ) < (10 : ℚ) ^ ⌊e⌋ := zpow_pos (by norm_num) _
  nlinarith

theorem MRpow10_ge_floor (e : ℚ) : (10 : ℚ) ^ ⌊e⌋ ≤ MRpow10 e := by
  rw [MRpow10, qfloor_eq]
  have h1 : (0 : ℚ) ≤ e - (⌊e⌋ : ℚ) := by
    have := Int.floor_le e
    linarith
  have h2 : (0 : ℚ) < (10 : ℚ) ^ ⌊e⌋ := zpow_pos (by norm_num) _
  nlinarith

theorem MRpow10_strictMono : StrictMono MRpow10 := by
  intro a b hab
  by_cases hfl : ⌊a⌋ = ⌊b⌋
  · rw [MRpow10, MRpow10, qfloor_eq, qfloor_eq, hfl]
    have h2 : (0 : ℚ) < (10 : ℚ) ^ ⌊b⌋ := zpow_pos (by norm_num) _
    have h3 : 1 + 9 * (a - (⌊b⌋ : ℚ)) < 1 + 9 * (b - (⌊b⌋ : ℚ)) := by linarith
    nlinarith
  · have hlt : ⌊a⌋ < ⌊b⌋ := lt_of_le_of_ne (Int.floor_le_floor (le_of_lt hab)) hfl
    calc MRpow10 a < (10 : ℚ) ^ (⌊a⌋ + 1) := MRpow10_fract_lt a
      _ ≤ (10 : ℚ) ^ ⌊b⌋ := zpow_le_zpow_right₀ (by norm_num) (by omega)
      _ ≤ MRpow10 b := MRpow10_ge_floor b

theorem MR_realLike : RealLike MR := by
  constructor
  · intro n
    rw [MR_pow10_eq, MRpow10, qfloor_eq, Int.floor_intCast]
    ring
  · intro a b hab
    show MR.pow 10 a < MR.pow 10 b
    rw [MR_pow10_eq, MR_pow10_eq]
    exact MRpow10_strictMono hab
  · intro e
    rw [MR_pow10_eq]
    exact MRpow10_pos e
  · intro x hx
    rw [MR_pow10_eq]
    show MRpow10 (MRlog x) = x
    rw [MRlog, if_neg (not_le.mpr hx)]
    obtain ⟨hlow, hup⟩ := ratFloorLog10_spec x hx
    set n : ℤ := ratFloorLog10 x with hn
    have hPpos : (0 : ℚ) < (10 : ℚ) ^ n := zpow_pos (by norm_num) _
    set t : ℚ := (x / (10 : ℚ) ^ n - 1) / 9 with ht
    have ht0 : 0 ≤ t := by
      rw [ht]
      have : (1 : ℚ) ≤ x / (10 : ℚ) ^ n := by
        rw [le_div_iff hPpos]
        linarith
      linarith
    have ht1 : t < 1 := by
      rw [ht]
      have hx10 : x / (10 : ℚ) ^ n < 10 := by
        rw [div_lt_iff hPpos]
        rw [zpow_add_one₀ (by norm_num : (10 : ℚ) ≠ 0)] at hup
        linarith
      linarith
    have hfl : ⌊(n : ℚ) + t⌋ = n := by
      rw [add_comm, Int.floor_add_int, Int.floor_eq_zero_iff.mpr ⟨ht0, ht1⟩]
      ring
    rw [MRpow10, qfloor_eq, hfl]
    have h9 : 1 + 9 * ((n : ℚ) + t - (n : ℚ)) = x / (10 : ℚ) ^ n := by
      rw [ht]
      field_simp
      ring
    rw [h9]
    field_simp

/-- Claim C3 witness: a concrete constructor call with integer
dimension, through the rational RealLike model. -/
theorem C3_invariant_witness : Pinv (mkDNum MR 5 ((1 : ℕ) : ℚ)) :=
  C3_invariant_amended MR MR_realLike _ (Reach.ctor 5 1 (le_refl 1))

end DN
